import Mathlib

/-!
Verification development for the Google-Photos-metadata tool
(`combine_metadata.py`).  The script scans a directory for media files and
Google-Takeout JSON sidecars, flattens the sidecar JSON, maps the flat keys
to EXIF/XMP/container tags, shells out to external tools to embed them, and
writes a `manifest.csv` grouping files by base name.

The embedding below translates the script's pure decision logic into Lean
definitions: JSON values become an inductive type, Python dicts become
association lists with Python's overwrite-or-append update semantics,
directory contents become a list of entry names (with `os.path.exists`
on a name joined to the scanned directory modelled as membership in that
list), and the external-tool calls become an explicit `ToolCall` plan run
against an oracle environment.
-/

set_option autoImplicit false

namespace CombineMetadata

/-- A parsed JSON value, as produced by Python's `json.load`.  Objects are
association lists in insertion order (Python dicts preserve insertion
order and have pairwise-distinct keys; theorems that need distinctness
take it as a well-formedness hypothesis). -/
inductive J where
  | null
  | bool (b : Bool)
  | num (n : Int)
  | str (s : String)
  | arr (xs : List J)
  | obj (kvs : List (String × J))

mutual

/-- Decidable equality on JSON values (the nested inductive defeats the
`DecidableEq` deriving handler, so the instance is built by hand). -/
def decEqJ : (a b : J) → Decidable (a = b)
  | .null, .null => isTrue rfl
  | .bool a, .bool b =>
    if h : a = b then isTrue (by rw [h]) else isFalse (fun he => by cases he; exact h rfl)
  | .num a, .num b =>
    if h : a = b then isTrue (by rw [h]) else isFalse (fun he => by cases he; exact h rfl)
  | .str a, .str b =>
    if h : a = b then isTrue (by rw [h]) else isFalse (fun he => by cases he; exact h rfl)
  | .arr a, .arr b =>
    match decEqLJ a b with
    | isTrue h => isTrue (by rw [h])
    | isFalse h => isFalse (fun he => by cases he; exact h rfl)
  | .obj a, .obj b =>
    match decEqSJ a b with
    | isTrue h => isTrue (by rw [h])
    | isFalse h => isFalse (fun he => by cases he; exact h rfl)
  | .null, .bool _ => isFalse (fun h => nomatch h)
  | .null, .num _ => isFalse (fun h => nomatch h)
  | .null, .str _ => isFalse (fun h => nomatch h)
  | .null, .arr _ => isFalse (fun h => nomatch h)
  | .null, .obj _ => isFalse (fun h => nomatch h)
  | .bool _, .null => isFalse (fun h => nomatch h)
  | .bool _, .num _ => isFalse (fun h => nomatch h)
  | .bool _, .str _ => isFalse (fun h => nomatch h)
  | .bool _, .arr _ => isFalse (fun h => nomatch h)
  | .bool _, .obj _ => isFalse (fun h => nomatch h)
  | .num _, .null => isFalse (fun h => nomatch h)
  | .num _, .bool _ => isFalse (fun h => nomatch h)
  | .num _, .str _ => isFalse (fun h => nomatch h)
  | .num _, .arr _ => isFalse (fun h => nomatch h)
  | .num _, .obj _ => isFalse (fun h => nomatch h)
  | .str _, .null => isFalse (fun h => nomatch h)
  | .str _, .bool _ => isFalse (fun h => nomatch h)
  | .str _, .num _ => isFalse (fun h => nomatch h)
  | .str _, .arr _ => isFalse (fun h => nomatch h)
  | .str _, .obj _ => isFalse (fun h => nomatch h)
  | .arr _, .null => isFalse (fun h => nomatch h)
  | .arr _, .bool _ => isFalse (fun h => nomatch h)
  | .arr _, .num _ => isFalse (fun h => nomatch h)
  | .arr _, .str _ => isFalse (fun h => nomatch h)
  | .arr _, .obj _ => isFalse (fun h => nomatch h)
  | .obj _, .null => isFalse (fun h => nomatch h)
  | .obj _, .bool _ => isFalse (fun h => nomatch h)
  | .obj _, .num _ => isFalse (fun h => nomatch h)
  | .obj _, .str _ => isFalse (fun h => nomatch h)
  | .obj _, .arr _ => isFalse (fun h => nomatch h)

/-- Decidable equality on JSON arrays. -/
def decEqLJ : (a b : List J) → Decidable (a = b)
  | [], [] => isTrue rfl
  | x :: xs, y :: ys =>
    match decEqJ x y, decEqLJ xs ys with
    | isTrue h1, isTrue h2 => isTrue (by rw [h1, h2])
    | isFalse h1, _ => isFalse (fun he => by cases he; exact h1 rfl)
    | _, isFalse h2 => isFalse (fun he => by cases he; exact h2 rfl)
  | [], _ :: _ => isFalse (fun h => nomatch h)
  | _ :: _, [] => isFalse (fun h => nomatch h)

/-- Decidable equality on JSON object entry lists. -/
def decEqSJ : (a b : List (String × J)) → Decidable (a = b)
  | [], [] => isTrue rfl
  | (k, x) :: xs, (l, y) :: ys =>
    if hk : k = l then
      match decEqJ x y, decEqSJ xs ys with
      | isTrue h1, isTrue h2 => isTrue (by rw [hk, h1, h2])
      | isFalse h1, _ => isFalse (fun he => by cases he; exact h1 rfl)
      | _, isFalse h2 => isFalse (fun he => by cases he; exact h2 rfl)
    else isFalse (fun he => by cases he; exact hk rfl)
  | [], _ :: _ => isFalse (fun h => nomatch h)
  | _ :: _, [] => isFalse (fun h => nomatch h)

end

instance : DecidableEq J := decEqJ

/-- Python truthiness (`bool(v)`) for JSON values: `None`, `False`, `0`,
`""`, `[]` and `{}` are falsy, everything else truthy. -/
def pyTruthy : J → Bool
  | .null => false
  | .bool b => b
  | .num n => n != 0
  | .str s => !s.isEmpty
  | .arr xs => !xs.isEmpty
  | .obj kvs => !kvs.isEmpty

/-- Dict lookup, `d.get(k)` / `d[k]`: first (only, in a real dict) binding. -/
def dGet (d : List (String × J)) (k : String) : Option J :=
  match d.find? (fun kv => kv.1 == k) with
  | some kv => some kv.2
  | none => none

/-- Dict store, `d[k] = v`: overwrite the binding in place when the key is
present, otherwise append the new binding (Python dicts keep insertion
order). -/
def dSet (d : List (String × J)) (k : String) (v : J) : List (String × J) :=
  if d.any (fun kv => kv.1 == k) then
    d.map (fun kv => if kv.1 == k then (k, v) else kv)
  else
    d ++ [(k, v)]

/-- Dict merge, `d.update(d2)`: store every binding of `d2` into `d` in
order. -/
def dUpdate (d d2 : List (String × J)) : List (String × J) :=
  d2.foldl (fun acc kv => dSet acc kv.1 kv.2) d

/-- A non-empty all-digit character run as a natural number. -/
def digitsNat (cs : List Char) : Option Nat :=
  if cs.isEmpty then none
  else
    cs.foldl
      (fun acc c =>
        acc.bind (fun n => if c.isDigit then some (n * 10 + (c.toNat - 48)) else none))
      (some 0)

/-- Python `int(s)` on a string: strip surrounding whitespace, then an
optional sign and a non-empty digit run. -/
def pyIntOfStr (s : String) : Option Int :=
  let cs := (s.data.dropWhile Char.isWhitespace).reverse.dropWhile
    Char.isWhitespace |>.reverse
  match cs with
  | '-' :: rest => (digitsNat rest).map (fun n => -(n : Int))
  | '+' :: rest => (digitsNat rest).map (fun n => (n : Int))
  | rest => (digitsNat rest).map (fun n => (n : Int))

/-- Python `int(v)` on a JSON value: identity on numbers, 0/1 on booleans,
decimal parse on strings, a `TypeError`/`ValueError` (modelled as
`Except.error`) otherwise. -/
def pyInt : J → Except String Int
  | .num n => .ok n
  | .bool b => .ok (if b then 1 else 0)
  | .str s =>
    match pyIntOfStr s with
    | some n => .ok n
    | none => .error "invalid literal for int()"
  | _ => .error "int() argument is not a string or a number"

mutual

/-- Python `repr(v)` for JSON values, used by `str` on lists and dicts.
String escaping inside container reprs is elided (no theorem below
evaluates a container repr). -/
def pyRepr : J → String
  | .null => "None"
  | .bool b => if b then "True" else "False"
  | .num n => toString n
  | .str s => "'" ++ s ++ "'"
  | .arr xs => "[" ++ pyReprArr xs ++ "]"
  | .obj kvs => "\x7b" ++ pyReprObj kvs ++ "\x7d"

/-- Comma-separated reprs of the elements of a JSON array. -/
def pyReprArr : List J → String
  | [] => ""
  | [x] => pyRepr x
  | x :: xs => pyRepr x ++ ", " ++ pyReprArr xs

/-- Comma-separated reprs of the entries of a JSON object. -/
def pyReprObj : List (String × J) → String
  | [] => ""
  | [(k, v)] => "'" ++ k ++ "': " ++ pyRepr v
  | (k, v) :: kvs => "'" ++ k ++ "': " ++ pyRepr v ++ ", " ++ pyReprObj kvs

end

/-- Python `str(v)` as used by f-string interpolation: strings unchanged,
everything else via `repr`-style rendering (`str` and `repr` agree on
`None`, booleans and integers). -/
def pyStr : J → String
  | .str s => s
  | v => pyRepr v

/-- Python `s.lower()` (ASCII case folding suffices for the extension
strings the script compares against). -/
def pyLower (s : String) : String :=
  String.mk (s.data.map Char.toLower)

/-- Python `s.endswith(suffix)`. -/
def pyEndsWith (s suffix : String) : Bool :=
  List.isSuffixOf suffix.data s.data

/-- Python `sub in s` on strings: contiguous substring test. -/
def pyContains (s sub : String) : Bool :=
  (List.range (s.data.length + 1)).any
    (fun i => (s.data.drop i).take sub.data.length == sub.data)

/-- Python `f.split('.', 1)[0]`: the prefix of a name before its first
dot (the whole name when it has no dot). -/
def splitFirstDot (s : String) : String :=
  String.mk (s.data.takeWhile (fun c => c != '.'))

/-- `os.path.splitext`: split a name into root and extension at the last
dot, except that a name whose part before the last dot is all dots (such
as `.bashrc`) has no extension. -/
def splitExt (s : String) : String × String :=
  let r := s.data.reverse
  let ex := r.takeWhile (fun c => c != '.')
  match r.dropWhile (fun c => c != '.') with
  | [] => (s, "")
  | _ :: rootRev =>
    if rootRev.any (fun c => c != '.') then
      (String.mk rootRev.reverse, String.mk ('.' :: ex.reverse))
    else
      (s, "")

/-- Length-9 suffix `'_withmeta'` stripped by the manifest builder
(`base[:-9]`); Python `s[:-9]`. -/
def dropLast9 (s : String) : String :=
  String.mk (s.data.take (s.data.length - 9))

/-! ### Timestamp rendering

`datetime.datetime.fromtimestamp(n)` followed by `strftime`.  The script
formats the same epoch value three ways: `%Y:%m:%d %H:%M:%S` for
exiftool, `%Y-%m-%dT%H:%M:%S` for the ffmpeg container field and
`%m/%d/%Y %H:%M:%S` for `SetFile`.  `fromtimestamp` uses the local
timezone; the embedding renders in UTC (the offset is a constant shift of
the epoch argument and no claim depends on the zone). -/

/-- Gregorian civil date from days since 1970-01-01 (standard
era/day-of-era decomposition over 400-year cycles). -/
def civilFromDays (z0 : Int) : Int × Nat × Nat :=
  let z := z0 + 719468
  let era := Int.fdiv z 146097
  let doe := (z - era * 146097).toNat
  let yoe := (doe - doe / 1460 + doe / 36524 - doe / 146096) / 365
  let y : Int := (yoe : Int) + era * 400
  let doy := doe - (365 * yoe + yoe / 4 - yoe / 100)
  let mp := (5 * doy + 2) / 153
  let d := doy - (153 * mp + 2) / 5 + 1
  let m := if mp < 10 then mp + 3 else mp - 9
  (if m ≤ 2 then y + 1 else y, m, d)

/-- Epoch seconds to `(year, month, day, hour, minute, second)`. -/
def epochCivil (ts : Int) : Int × Nat × Nat × Nat × Nat × Nat :=
  let days := Int.fdiv ts 86400
  let rem := (Int.emod ts 86400).toNat
  let (y, m, d) := civilFromDays days
  (y, m, d, rem / 3600, rem % 3600 / 60, rem % 60)

/-- Zero-pad a field to two digits (`%m`, `%d`, `%H`, `%M`, `%S`). -/
def pad2 (n : Nat) : String :=
  if n < 10 then "0" ++ toString n else toString n

/-- Render a year as `%Y` (zero-padded to four digits for the years the
tool can meet). -/
def pad4 (n : Int) : String :=
  if n < 0 then toString n
  else
    (if n < 10 then "000" else if n < 100 then "00"
     else if n < 1000 then "0" else "") ++ toString n

/-- `strftime('%Y:%m:%d %H:%M:%S')` of an epoch value, the exiftool date
format. -/
def fmtColon (ts : Int) : String :=
  let (y, mo, d, h, mi, s) := epochCivil ts
  pad4 y ++ ":" ++ pad2 mo ++ ":" ++ pad2 d ++ " " ++
    pad2 h ++ ":" ++ pad2 mi ++ ":" ++ pad2 s

/-- `strftime('%Y-%m-%dT%H:%M:%S')` of an epoch value, the ffmpeg
`creation_time` format. -/
def fmtIso (ts : Int) : String :=
  let (y, mo, d, h, mi, s) := epochCivil ts
  pad4 y ++ "-" ++ pad2 mo ++ "-" ++ pad2 d ++ "T" ++
    pad2 h ++ ":" ++ pad2 mi ++ ":" ++ pad2 s

/-- `strftime('%m/%d/%Y %H:%M:%S')` of an epoch value, the `SetFile`
Finder-date format. -/
def fmtFinder (ts : Int) : String :=
  let (y, mo, d, h, mi, s) := epochCivil ts
  pad2 mo ++ "/" ++ pad2 d ++ "/" ++ pad4 y ++ " " ++
    pad2 h ++ ":" ++ pad2 mi ++ ":" ++ pad2 s

/-! ### JSON flattening (`flatten_json`, lines 51-58) -/

mutual

/-- One iteration of the `flatten_json` loop on the entry `k, v`: merge
the recursively flattened entries of a nested object into the
accumulator `out` with `out.update(...)`, and store every other value
under the `_`-joined key `pre ++ k`. -/
def flattenV (k : String) (v : J) (pre : String) (out : List (String × J)) :
    List (String × J) :=
  match v with
  | .obj inner => dUpdate out (flattenL inner (pre ++ k ++ "_") [])
  | v => dSet out (pre ++ k) v

/-- The loop of `flatten_json`: walk the entries of `y` in order,
threading the accumulator. -/
def flattenL : List (String × J) → String → List (String × J) →
    List (String × J)
  | [], _, out => out
  | (k, v) :: rest, pre, out => flattenL rest pre (flattenV k v pre out)

end

/-- `flatten_json(y, prefix)`: flatten a nested JSON object into a flat
mapping whose keys are the `_`-joined paths of its leaves. -/
def flatten_json (y : List (String × J)) (pre : String) : List (String × J) :=
  flattenL y pre []

mutual

/-- The leaves contributed by one entry `k, v`: the leaves of a nested
object with `k` prepended to their paths, or the single leaf `[k], v`. -/
def leafV (k : String) (v : J) : List (List String × J) :=
  match v with
  | .obj inner => (leaves inner).map (fun pv => (k :: pv.1, pv.2))
  | v => [([k], v)]

/-- The leaves of a nested JSON object: each non-object value paired
with its key path from the root, in the traversal order of
`flatten_json`. -/
def leaves : List (String × J) → List (List String × J)
  | [] => []
  | (k, v) :: rest => leafV k v ++ leaves rest

end

/-- The keys of an object entry list. -/
def keysOf (l : List (String × J)) : List String := l.map (fun kv => kv.1)

mutual

/-- Well-formedness of a JSON value as a Python `json.load` result: every
object has pairwise-distinct keys. -/
def wfV : J → Bool
  | .obj kvs => wfL kvs
  | _ => true

/-- Well-formedness of an object entry list: pairwise-distinct keys at
this level and well-formed values. -/
def wfL : List (String × J) → Bool
  | [] => true
  | (k, v) :: rest => !(rest.any (fun kv => kv.1 == k)) && wfV v && wfL rest

end

mutual

/-- No object key anywhere in the value contains the joiner `'_'`. -/
def nuV : J → Bool
  | .obj kvs => nuL kvs
  | _ => true

/-- No object key anywhere in the entry list contains the joiner `'_'`. -/
def nuL : List (String × J) → Bool
  | [] => true
  | (k, v) :: rest => !(k.data.contains '_') && nuV v && nuL rest

end

mutual

/-- No empty-object value anywhere in the value. -/
def neV : J → Bool
  | .obj kvs => !kvs.isEmpty && neL kvs
  | _ => true

/-- No empty-object value anywhere in the entry list. -/
def neL : List (String × J) → Bool
  | [] => true
  | (_, v) :: rest => neV v && neL rest

end

mutual

/-- No array value anywhere in the value (the spec's "no array-valued
leaves" precondition). -/
def naV : J → Bool
  | .arr _ => false
  | .obj kvs => naL kvs
  | _ => true

/-- No array value anywhere in the entry list. -/
def naL : List (String × J) → Bool
  | [] => true
  | (_, v) :: rest => naV v && naL rest

end

/-! ### Joining and splitting flat keys -/

/-- Join character-level path components with `'_'`. -/
def joinChars : List (List Char) → List Char
  | [] => []
  | [k] => k
  | k :: ks => k ++ '_' :: joinChars ks

/-- Python `s.split('_')` at character level. -/
def splitChars : List Char → List (List Char)
  | [] => [[]]
  | c :: cs =>
    if c = '_' then [] :: splitChars cs
    else
      match splitChars cs with
      | [] => [[c]]
      | p :: ps => (c :: p) :: ps

/-- Join string path components with `"_"` — the flat key `flatten_json`
produces for a leaf path. -/
def joinKeys : List String → String
  | [] => ""
  | [k] => k
  | k :: ks => k ++ "_" ++ joinKeys ks

/-- Python `key.split('_')`: the path components of a flat key. -/
def splitKey (s : String) : List String :=
  (splitChars s.data).map String.mk

/-! ### Re-nesting (spec side)

Modelled from the spec: the spec's testable property re-nests a flat
mapping "by splitting each key on `_`"; the repository has no re-nesting
code, so the canonical reconstruction is defined here: insert each flat
entry at the object path obtained by splitting its key. -/

/-- Modelled from the spec: insert a value at a nested key path, creating
intermediate objects where the path does not yet lead to one. -/
def setPath : List (String × J) → List String → J → List (String × J)
  | d, [], _ => d
  | d, [k], v => dSet d k v
  | d, k :: rest, v =>
    match dGet d k with
    | some (J.obj inner) => dSet d k (J.obj (setPath inner rest v))
    | _ => dSet d k (J.obj (setPath [] rest v))

/-- Modelled from the spec: re-nest a flat mapping by splitting each flat
key on `_` and inserting the value at the resulting path, in order. -/
def unflatten (flat : List (String × J)) : List (String × J) :=
  flat.foldl (fun acc kv => setPath acc (splitKey kv.1) kv.2) []

/-- Insert a list of path/value leaves into an object in order (the
path-level view of `unflatten`). -/
def insertAll (acc : List (String × J)) (pvs : List (List String × J)) :
    List (String × J) :=
  pvs.foldl (fun a pv => setPath a pv.1 pv.2) acc

/-! ### Pairing resolver (`find_image_json_pairs`, lines 13-49)

A directory is modelled as the list of its entry names, in listing
order; `os.path.exists(os.path.join(directory, name))` becomes
membership of `name` in that list, and the returned paths are the entry
names relative to the scanned directory. -/

/-- Line 13 of the source, bare `heic` entry included. -/
def SUPPORTED_EXTENSIONS : List String :=
  [".jpg", ".jpeg", ".png", "heic", ".mp4", ".mov"]

/-- The image-extension list used by the video cross-reference search. -/
def image_exts : List String := [".jpg", ".jpeg", ".png", ".heic"]

/-- Line 20: `any(file.lower().endswith(ext) for ext in
SUPPORTED_EXTENSIONS)`. -/
def isSupportedName (file : String) : Bool :=
  SUPPORTED_EXTENSIONS.any (fun ext => pyEndsWith (pyLower file) ext)

/-- Lines 30-46: a video with no direct sidecar searches for a sidecar of
a same-base-name image, each image extension in order, the
`.supplemental-metadata.json` convention before `.suppl.json`. -/
def crossRefSidecar (entries : List String) (file : String) : Option String :=
  let ext := pyLower (splitExt file).2
  let base := splitFirstDot file
  if ext == ".mp4" || ext == ".mov" then
    image_exts.findSome? (fun img_ext =>
      let img_file := base ++ img_ext
      if entries.contains (img_file ++ ".supplemental-metadata.json") then
        some (img_file ++ ".supplemental-metadata.json")
      else if entries.contains (img_file ++ ".suppl.json") then
        some (img_file ++ ".suppl.json")
      else none)
  else none

/-- Lines 23-46 for one file, with the cross-reference search abstracted
as `cross`: direct `.supplemental-metadata.json` first, direct
`.suppl.json` second, and only if both are absent the cross-reference
path. -/
def sidecarForGen (cross : String → Option String) (entries : List String)
    (file : String) : Option String :=
  if entries.contains (file ++ ".supplemental-metadata.json") then
    some (file ++ ".supplemental-metadata.json")
  else if entries.contains (file ++ ".suppl.json") then
    some (file ++ ".suppl.json")
  else cross file

/-- The sidecar resolution of `find_image_json_pairs` for one file. -/
def sidecarFor (entries : List String) (file : String) : Option String :=
  sidecarForGen (crossRefSidecar entries) entries file

/-- The `for file in os.listdir(directory)` loop of
`find_image_json_pairs`, accumulating pairs and unmatched files. -/
def findLoop (entries : List String) :
    List String → List (String × String) × List String →
    List (String × String) × List String
  | [], acc => acc
  | file :: rest, acc =>
    if isSupportedName file then
      match sidecarFor entries file with
      | some j => findLoop entries rest (acc.1 ++ [(file, j)], acc.2)
      | none => findLoop entries rest (acc.1, acc.2 ++ [file])
    else findLoop entries rest acc

/-- `find_image_json_pairs(directory)`: the (media, sidecar) pairs and
the unmatched media files of a directory listing. -/
def find_image_json_pairs (entries : List String) :
    List (String × String) × List String :=
  findLoop entries entries ([], [])

/-! ### Timestamp fallback and tag mapping (`map_json_to_exif_xmp`,
lines 60-107) -/

/-- Lines 62-64 (and identically lines 130-132 and 285): `best_timestamp
= photo_taken_timestamp or creation_timestamp`, Python `or` returning
its left operand only when that operand is truthy. -/
def best_timestamp (flat : List (String × J)) : Option J :=
  match dGet flat "photoTakenTime_timestamp" with
  | some v => if pyTruthy v then some v else dGet flat "creationTime_timestamp"
  | none => dGet flat "creationTime_timestamp"

/-- The image-kind key-to-tag allow-list (`mapping_img`). -/
def mapping_img : List (String × String) :=
  [("title", "XMP:Title"),
   ("description", "XMP:Description"),
   ("imageViews", "XMP:ImageViews"),
   ("geoData_latitude", "EXIF:GPSLatitude"),
   ("geoData_longitude", "EXIF:GPSLongitude"),
   ("geoData_altitude", "EXIF:GPSAltitude"),
   ("url", "XMP:URL"),
   ("googlePhotosOrigin_mobileUpload_deviceType", "XMP:DeviceType")]

/-- The video-kind key-to-tag allow-list (`mapping_vid`). -/
def mapping_vid : List (String × String) :=
  [("title", "XMP:Title"),
   ("description", "XMP:Description"),
   ("url", "XMP:URL")]

/-- Lookup in a key-to-tag allow-list (`k in mapping` / `mapping[k]`). -/
def lookupTag (m : List (String × String)) (k : String) : Option String :=
  match m.find? (fun kv => kv.1 == k) with
  | some kv => some kv.2
  | none => none

/-- The allow-list pass of `map_json_to_exif_xmp`: for each flat entry
whose key is in the allow-list, store `tag -> value`, in flat-mapping
order. -/
def allowListPass (m : List (String × String)) (flat : List (String × J)) :
    List (String × J) :=
  flat.foldl
    (fun acc kv =>
      match lookupTag m kv.1 with
      | some tag => dSet acc tag kv.2
      | none => acc)
    []

/-- `map_json_to_exif_xmp(flat_metadata, is_video)`: allow-listed tags
plus, when the best timestamp is truthy, the kind-specific date tags
formatted `%Y:%m:%d %H:%M:%S`.  `int()` failure on the timestamp value
raises (returns `Except.error`). -/
def map_json_to_exif_xmp (flat : List (String × J)) (is_video : Bool) :
    Except String (List (String × J)) :=
  let best := best_timestamp flat
  if is_video then
    let base := allowListPass mapping_vid flat
    match best with
    | some v =>
      if pyTruthy v then
        (pyInt v).map (fun n =>
          let date_str := fmtColon n
          dSet (dSet (dSet (dSet (dSet base
            "XMP:CreateDate" (.str date_str))
            "QuickTime:CreateDate" (.str date_str))
            "QuickTime:ModifyDate" (.str date_str))
            "QuickTime:ContentCreateDate" (.str date_str))
            "QuickTime:ContentModifyDate" (.str date_str))
      else .ok base
    | none => .ok base
  else
    let base := allowListPass mapping_img flat
    match best with
    | some v =>
      if pyTruthy v then
        (pyInt v).map (fun n =>
          let date_str := fmtColon n
          dSet (dSet base
            "EXIF:DateTimeOriginal" (.str date_str))
            "XMP:CreateDate" (.str date_str))
      else .ok base
    | none => .ok base

/-! ### External-tool plans and the per-pair loop of `main`
(lines 110-159 and 255-314)

Each shell-out of the script becomes a `ToolCall`; an `Env` supplies the
outcomes the filesystem and the external binaries would produce. -/

/-- One external invocation of the script. -/
inductive ToolCall where
  /-- `exiftool` tag embedding with `-TAG=VALUE` arguments plus
  `-overwrite_original` (lines 110-119). -/
  | exiftoolEmbed (path : String) (args : List String)
  /-- `exiftool -overwrite_original '-FileCreateDate<DateTimeOriginal'`
  (lines 292-298). -/
  | exiftoolFileDate (path : String)
  /-- The `ffmpeg` transcode command (line 154). -/
  | ffmpegRun (cmd : List String)
  /-- `SetFile -d date path` (line 235). -/
  | setFile (path : String) (date : String)
  deriving DecidableEq

/-- The oracle environment for one run: sidecar parsing (`json.load`),
the `mdls` Finder-creation-date lookup, and the outcome of each external
invocation. -/
structure Env where
  parse : String → Except String (List (String × J))
  finderDate : String → Option String
  run : ToolCall → Except String Unit

/-- `embed_metadata(image_path, metadata)` (lines 110-119): map the flat
metadata to tags (which may raise on `int()`) and plan one exiftool
invocation with one `-TAG=VALUE` argument per tag plus
`-overwrite_original`. -/
def embed_metadata (image_path : String) (metadata : List (String × J)) :
    Except String (List ToolCall) :=
  let ext := pyLower (splitExt image_path).2
  let is_video := ext == ".mp4" || ext == ".mov"
  (map_json_to_exif_xmp metadata is_video).map (fun tags =>
    [ToolCall.exiftoolEmbed image_path
      (tags.map (fun kv => "-" ++ kv.1 ++ "=" ++ pyStr kv.2) ++
        ["-overwrite_original"])])

/-- `embed_metadata_ffmpeg(video_path, metadata)` (lines 121-159): build
the ffmpeg command — `title=` and `comment=` container fields always,
`creation_time=` only when the best timestamp is truthy — writing to
`<base>_withmeta.mp4` for `.mov` input and `<base>_withmeta<ext>`
otherwise, then plan the Finder-date copy onto the output when the
original file has an OS-level creation date. -/
def embed_metadata_ffmpeg (env : Env) (video_path : String)
    (metadata : List (String × J)) : Except String (List ToolCall) :=
  let title := (dGet metadata "title").getD (J.str "")
  let description := (dGet metadata "description").getD (J.str "")
  let best := best_timestamp metadata
  let creationE : Except String String :=
    match best with
    | some v => if pyTruthy v then (pyInt v).map fmtIso else .ok ""
    | none => .ok ""
  creationE.bind (fun creation_time =>
    let be := splitExt video_path
    let output_path :=
      if pyLower be.2 == ".mov" then be.1 ++ "_withmeta.mp4"
      else be.1 ++ "_withmeta" ++ be.2
    let cmd :=
      ["ffmpeg", "-y", "-i", video_path,
       "-metadata", "title=" ++ pyStr title,
       "-metadata", "comment=" ++ pyStr description] ++
      (if creation_time.isEmpty then []
       else ["-metadata", "creation_time=" ++ creation_time]) ++
      ["-codec", "copy", output_path]
    .ok ([ToolCall.ffmpegRun cmd] ++
      match env.finderDate video_path with
      | some d => [ToolCall.setFile output_path d]
      | none => []))

/-- Lines 301-311: the `SetFile` invocation from the best timestamp,
planned only when the timestamp is truthy (`int()` may raise). -/
def finderFromBest (best : Option J) (path : String) :
    Except String (List ToolCall) :=
  match best with
  | some v =>
    if pyTruthy v then
      (pyInt v).map (fun n => [ToolCall.setFile path (fmtFinder n)])
    else .ok []
  | none => .ok []

/-- The external invocations the body of `main`'s per-pair loop (lines
283-311) performs for one media file with already-flattened metadata, in
order: the embedding path for the media kind, the filesystem-date copy
for images, the Finder date for `.png`, and the Finder date for `.mp4`.
Every `int()` failure in the body precedes the first invocation, so a
plan either errors before any call or lists all calls. -/
def pairPlan (env : Env) (image_path : String) (flat : List (String × J)) :
    Except String (List ToolCall) :=
  let ext := pyLower (splitExt image_path).2
  let best := best_timestamp flat
  let embedCalls : Except String (List ToolCall) :=
    if ext == ".mp4" || ext == ".mov" then
      embed_metadata_ffmpeg env image_path flat
    else embed_metadata image_path flat
  embedCalls.bind (fun calls1 =>
    let calls2 :=
      if ext == ".mp4" || ext == ".mov" then []
      else [ToolCall.exiftoolFileDate image_path]
    let pngE :=
      if ext == ".png" then finderFromBest best image_path else .ok []
    pngE.bind (fun calls3 =>
      let mp4E :=
        if ext == ".mp4" then finderFromBest best image_path else .ok []
      mp4E.map (fun calls4 => calls1 ++ calls2 ++ calls3 ++ calls4)))

/-- Run planned calls in order, stopping at (and recording) the first
failure — the exception that aborts the pair's remaining steps. -/
def runCalls (env : Env) : List ToolCall → List ToolCall × Option String
  | [] => ([], none)
  | c :: rest =>
    match env.run c with
    | .ok _ => let r := runCalls env rest; (c :: r.1, r.2)
    | .error e => ([c], some e)

/-- One iteration of `main`'s `for image_path, json_path in pairs` loop
under the surrounding `try`/`except`: the executed calls and the logged
error, if any (parse failure, `int()` failure, or tool failure). -/
def processPair (env : Env) (pr : String × String) :
    List ToolCall × Option String :=
  match env.parse pr.2 with
  | .error e => ([], some e)
  | .ok metadata =>
    match pairPlan env pr.1 (flatten_json metadata "") with
    | .error e => ([], some e)
    | .ok calls => runCalls env calls

/-- The observable outcome of `main` (lines 255-314). -/
structure RunResult where
  exitCode : Nat
  manifestWritten : Bool
  processed : List ((String × String) × (List ToolCall × Option String))
  deriving DecidableEq

/-- `main()`: exit 1 on an invalid directory; exit 0 without a manifest
when no pairs are found; otherwise process every pair — each failure
only logged — and always write the manifest, exiting 0. -/
def mainRun (env : Env) (isDir : Bool) (entries : List String) : RunResult :=
  if !isDir then ⟨1, false, []⟩
  else
    let pm := find_image_json_pairs entries
    if pm.1.isEmpty then ⟨0, false, []⟩
    else ⟨0, true, pm.1.map (fun pr => (pr, processPair env pr))⟩

/-! ### Manifest builder (`create_csv_manifest`, lines 161-200) -/

/-- One row of `manifest.csv`: the base name and the four file slots. -/
structure ManifestRow where
  base_name : String
  image : String
  video : String
  video_withmeta : String
  metadata : String
  deriving DecidableEq

/-- Lines 166-168: the grouping key of a file — the part before the
first dot, with a trailing `_withmeta` stripped. -/
def baseOf (f : String) : String :=
  let base := splitFirstDot f
  if pyEndsWith base "_withmeta" then dropLast9 base else base

/-- One step of the grouping loop of lines 164-171: append the file to
its base-name group, creating the group on first sight. -/
def groupStep (acc : List (String × List String)) (f : String) :
    List (String × List String) :=
  let base := baseOf f
  if acc.any (fun g => g.1 == base) then
    acc.map (fun g => if g.1 == base then (g.1, g.2 ++ [f]) else g)
  else acc ++ [(base, [f])]

/-- Lines 164-171: group the listing by base name, first-seen group
order, members in listing order. -/
def groupBases (files : List String) : List (String × List String) :=
  files.foldl groupStep []

/-- Lines 181-190: classify one group member into its slot (last write
wins per slot). -/
def updateRow (row : ManifestRow) (f : String) : ManifestRow :=
  let ext := pyLower (splitExt f).2
  if ext == ".jpg" || ext == ".jpeg" || ext == ".png" || ext == ".heic" then
    { row with image := f }
  else if (ext == ".mp4" || ext == ".mov") && !pyContains f "_withmeta" then
    { row with video := f }
  else if ext == ".mp4" && pyContains f "_withmeta" then
    { row with video_withmeta := f }
  else if pyEndsWith f ".supplemental-metadata.json" ||
      pyEndsWith f ".suppl.json" then
    { row with metadata := f }
  else row

/-- The row built for one group: start from all-empty slots and classify
each member in order. -/
def rowFor (base : String) (members : List String) : ManifestRow :=
  members.foldl updateRow ⟨base, "", "", "", ""⟩

/-- Lines 172-192: the rows `create_csv_manifest` writes (after the
header), keeping only rows with at least one non-empty slot. -/
def create_csv_manifest_rows (files : List String) : List ManifestRow :=
  ((groupBases files).map (fun g => rowFor g.1 g.2)).filter
    (fun r => !r.image.isEmpty || !r.video.isEmpty ||
      !r.video_withmeta.isEmpty || !r.metadata.isEmpty)

/-- Whether `updateRow` classifies a file into any slot (the disjunction
of the four guards of lines 183-190). -/
def classifies (f : String) : Bool :=
  let ext := pyLower (splitExt f).2
  ext == ".jpg" || ext == ".jpeg" || ext == ".png" || ext == ".heic" ||
  ((ext == ".mp4" || ext == ".mov") && !pyContains f "_withmeta") ||
  (ext == ".mp4" && pyContains f "_withmeta") ||
  pyEndsWith f ".supplemental-metadata.json" || pyEndsWith f ".suppl.json"

/-- The pairs contributed by a slice of the listing: one per supported
file with a resolved sidecar. -/
def pairContrib (entries : List String) (l : List String) :
    List (String × String) :=
  l.filterMap (fun f =>
    if isSupportedName f then (sidecarFor entries f).map (fun j => (f, j))
    else none)

/-- The unmatched files contributed by a slice of the listing: the
supported files with no resolved sidecar. -/
def missContrib (entries : List String) (l : List String) : List String :=
  l.filter (fun f => isSupportedName f && (sidecarFor entries f).isNone)

/-- The two creation-date tags the image branch of
`map_json_to_exif_xmp` writes. -/
def creationDateTags : List String := ["EXIF:DateTimeOriginal", "XMP:CreateDate"]

/-- An environment in which every sidecar parses to
`{"photoTakenTime": {"timestamp": "86400"}}`, no file has an OS-level
creation date, and every external invocation succeeds. -/
def envAllOk : Env :=
  ⟨fun _ => .ok [("photoTakenTime", J.obj [("timestamp", J.str "86400")])],
   fun _ => none,
   fun _ => .ok ()⟩

/-! ## Theorems -/

/-- Two strings with the same character data are equal. -/
theorem str_ext {a b : String} (h : a.data = b.data) : a = b :=
  congrArg String.mk h

/-- `contains` on a string list is membership. -/
theorem contains_iff_mem (l : List String) (a : String) :
    l.contains a = true ↔ a ∈ l := by
  simp [List.contains, List.elem_iff]

/-- `dGet` misses exactly when no entry has the key. -/
theorem dGet_eq_none_iff (d : List (String × J)) (k : String) :
    dGet d k = none ↔ ∀ kv ∈ d, kv.1 ≠ k := by
  unfold dGet
  cases hf : d.find? (fun kv => kv.1 == k) with
  | some kv =>
    have hp := List.find?_some hf
    have hm := List.mem_of_find?_eq_some hf
    simp only [beq_iff_eq] at hp
    simp only [reduceCtorEq, false_iff, not_forall]
    exact ⟨kv, hm, fun hne => hne hp⟩
  | none =>
    rw [List.find?_eq_none] at hf
    simp only [true_iff]
    intro kv hkv
    simpa using hf kv hkv

/-- The pairing loop appends the contributions of the remaining slice to
the accumulator. -/
theorem findLoop_eq (entries : List String) (l : List String) :
    ∀ acc, findLoop entries l acc =
      (acc.1 ++ pairContrib entries l, acc.2 ++ missContrib entries l) := by
  induction l with
  | nil => intro acc; simp [findLoop, pairContrib, missContrib]
  | cons f rest ih =>
    intro acc
    simp only [findLoop]
    cases hs : isSupportedName f with
    | false =>
      simp only [hs, Bool.false_eq_true, if_false]
      rw [ih acc]
      simp [pairContrib, missContrib, hs]
    | true =>
      simp only [hs, if_true]
      cases hj : sidecarFor entries f with
      | none =>
        show findLoop entries rest (acc.1, acc.2 ++ [f]) = _
        rw [ih]
        simp [pairContrib, missContrib, hs, hj]
      | some j =>
        show findLoop entries rest (acc.1 ++ [(f, j)], acc.2) = _
        rw [ih]
        simp [pairContrib, missContrib, hs, hj]

/-- `find_image_json_pairs` in closed form: the per-file contributions of
the whole listing. -/
theorem find_image_json_pairs_eq (entries : List String) :
    find_image_json_pairs entries =
      (pairContrib entries entries, missContrib entries entries) := by
  simpa using findLoop_eq entries entries ([], [])

/-- A supported file with a resolved sidecar contributes its pair. -/
theorem mem_pairs_of_sidecar (entries : List String) (f j : String)
    (hf : f ∈ entries) (hs : isSupportedName f = true)
    (hj : sidecarFor entries f = some j) :
    (f, j) ∈ (find_image_json_pairs entries).1 := by
  rw [find_image_json_pairs_eq]
  simp only [pairContrib, List.mem_filterMap]
  exact ⟨f, hf, by simp [hs, hj]⟩

/-- A supported file with no resolved sidecar is reported unmatched. -/
theorem mem_missing_of_no_sidecar (entries : List String) (f : String)
    (hf : f ∈ entries) (hs : isSupportedName f = true)
    (hj : sidecarFor entries f = none) :
    f ∈ (find_image_json_pairs entries).2 := by
  rw [find_image_json_pairs_eq]
  simp only [missContrib, List.mem_filter]
  exact ⟨hf, by simp [hs, hj]⟩

/-- C1 (counterexample): with `photoTakenTime_timestamp` present but
bound to the falsy value `""` and `creationTime_timestamp = "2000"`,
BestTimestamp is `"2000"`, not the present `photoTakenTime_timestamp`
value — Python `or` tests truthiness, not presence. -/
theorem best_timestamp_present_key_ignored :
    dGet [("photoTakenTime_timestamp", J.str ""),
          ("creationTime_timestamp", J.str "2000")]
        "photoTakenTime_timestamp" = some (J.str "") ∧
    best_timestamp [("photoTakenTime_timestamp", J.str ""),
                    ("creationTime_timestamp", J.str "2000")] =
      some (J.str "2000") ∧
    J.str "2000" ≠ J.str "" := by decide

/-- C1 (amended): BestTimestamp is the value of
`photoTakenTime_timestamp` whenever that key is present with a truthy
value; whenever that key is absent or its value is falsy, BestTimestamp
is the `creationTime_timestamp` lookup (hence absent when both keys are
absent); and with `photoTakenTime_timestamp=1000`,
`creationTime_timestamp=2000` it is 1000. -/
theorem best_timestamp_truthy_preference :
    (∀ (flat : List (String × J)) (v : J),
      dGet flat "photoTakenTime_timestamp" = some v → pyTruthy v = true →
      best_timestamp flat = some v) ∧
    (∀ (flat : List (String × J)),
      (∀ v, dGet flat "photoTakenTime_timestamp" = some v →
        pyTruthy v = false) →
      best_timestamp flat = dGet flat "creationTime_timestamp") ∧
    best_timestamp [("photoTakenTime_timestamp", J.str "1000"),
                    ("creationTime_timestamp", J.str "2000")] =
      some (J.str "1000") := by
  refine ⟨?_, ?_, by decide⟩
  · intro flat v h ht
    simp [best_timestamp, h, ht]
  · intro flat h
    cases hp : dGet flat "photoTakenTime_timestamp" with
    | none => simp [best_timestamp, hp]
    | some v => simp [best_timestamp, hp, h v hp]

/-- C1 (witness): the amended preference applied at a concrete mapping
with a truthy taken-time value. -/
theorem best_timestamp_truthy_preference_witness :
    best_timestamp [("photoTakenTime_timestamp", J.str "7")] =
      some (J.str "7") :=
  best_timestamp_truthy_preference.1
    [("photoTakenTime_timestamp", J.str "7")] (J.str "7")
    (by decide) (by decide)

/-- C7 (counterexample): `"a.heic"` IS matched by the supported-extension
check — `endswith('heic')` needs no leading dot — and therefore appears
in the resolver's outputs (here as unmatched). -/
theorem heic_matched_counterexample :
    isSupportedName "a.heic" = true ∧
    find_image_json_pairs ["a.heic"] = ([], ["a.heic"]) := by decide

/-- C7 (amended): every filename ending in `.heic` (any case) is matched
by the supported-extension check, because the bare `heic` entry is
compared with `endswith`, which needs no leading dot; such a file, when
listed, is selected for pairing and appears among the pairs or the
unmatched files. -/
theorem heic_matched (f : String) (entries : List String)
    (h : pyEndsWith (pyLower f) ".heic" = true) :
    isSupportedName f = true ∧
    (f ∈ entries →
      (∃ j, (f, j) ∈ (find_image_json_pairs entries).1) ∨
      f ∈ (find_image_json_pairs entries).2) := by
  have hsupp : isSupportedName f = true := by
    have hs : pyEndsWith (pyLower f) "heic" = true := by
      unfold pyEndsWith at h ⊢
      rw [List.isSuffixOf_iff_suffix] at h ⊢
      exact List.IsSuffix.trans (by decide) h
    unfold isSupportedName
    rw [List.any_eq_true]
    exact ⟨"heic", by decide, hs⟩
  refine ⟨hsupp, fun hf => ?_⟩
  cases hj : sidecarFor entries f with
  | some j => exact Or.inl ⟨j, mem_pairs_of_sidecar entries f j hf hsupp hj⟩
  | none => exact Or.inr (mem_missing_of_no_sidecar entries f hf hsupp hj)

/-- C7 (witness): the amended statement at `"a.heic"` in a singleton
listing. -/
theorem heic_matched_witness :
    isSupportedName "a.heic" = true ∧
    (("a.heic" : String) ∈ ["a.heic"] →
      (∃ j, ("a.heic", j) ∈ (find_image_json_pairs ["a.heic"]).1) ∨
      "a.heic" ∈ (find_image_json_pairs ["a.heic"]).2) :=
  heic_matched "a.heic" ["a.heic"] (by decide)

/-- C2: for every supported media file with a direct sidecar, the
resolver pairs the file with that direct sidecar —
`.supplemental-metadata.json` preferred over `.suppl.json` — and the
result is the same for EVERY cross-reference function, so the
cross-reference path is never consulted for such a file. -/
theorem direct_sidecar_dominates (cross : String → Option String)
    (entries : List String) (f : String)
    (hf : f ∈ entries) (hs : isSupportedName f = true) :
    ((f ++ ".supplemental-metadata.json") ∈ entries →
      sidecarForGen cross entries f =
        some (f ++ ".supplemental-metadata.json") ∧
      (f, f ++ ".supplemental-metadata.json") ∈
        (find_image_json_pairs entries).1) ∧
    ((f ++ ".supplemental-metadata.json") ∉ entries →
      (f ++ ".suppl.json") ∈ entries →
      sidecarForGen cross entries f = some (f ++ ".suppl.json") ∧
      (f, f ++ ".suppl.json") ∈ (find_image_json_pairs entries).1) := by
  constructor
  · intro h1
    have hc1 : entries.contains (f ++ ".supplemental-metadata.json") = true :=
      (contains_iff_mem _ _).mpr h1
    have hgen : ∀ cr, sidecarForGen cr entries f =
        some (f ++ ".supplemental-metadata.json") := by
      intro cr; unfold sidecarForGen; rw [if_pos hc1]
    exact ⟨hgen cross,
      mem_pairs_of_sidecar entries f _ hf hs (hgen (crossRefSidecar entries))⟩
  · intro h1 h2
    have hc1 : entries.contains (f ++ ".supplemental-metadata.json") = false := by
      cases hc : entries.contains (f ++ ".supplemental-metadata.json") with
      | false => rfl
      | true => exact absurd ((contains_iff_mem _ _).mp hc) h1
    have hc2 : entries.contains (f ++ ".suppl.json") = true :=
      (contains_iff_mem _ _).mpr h2
    have hgen : ∀ cr, sidecarForGen cr entries f = some (f ++ ".suppl.json") := by
      intro cr
      unfold sidecarForGen
      rw [if_neg (by rw [hc1]; simp), if_pos hc2]
    exact ⟨hgen cross,
      mem_pairs_of_sidecar entries f _ hf hs (hgen (crossRefSidecar entries))⟩

/-- C2 (witness): direct-match domination at a concrete directory where
both a direct sidecar and a cross-reference candidate exist. -/
theorem direct_sidecar_dominates_witness :
    sidecarForGen (fun _ => some "b.jpg.suppl.json")
        ["b.mov", "b.mov.suppl.json", "b.jpg.suppl.json"] "b.mov" =
      some "b.mov.suppl.json" ∧
    ("b.mov", "b.mov.suppl.json") ∈
      (find_image_json_pairs ["b.mov", "b.mov.suppl.json", "b.jpg.suppl.json"]).1 :=
  (direct_sidecar_dominates (fun _ => some "b.jpg.suppl.json")
      ["b.mov", "b.mov.suppl.json", "b.jpg.suppl.json"] "b.mov"
      (by decide) (by decide)).2
    (by decide) (by decide)

/-- A file the classifier rejects leaves the row unchanged. -/
theorem updateRow_not_classified (r : ManifestRow) (f : String)
    (h : classifies f = false) : updateRow r f = r := by
  simp only [classifies, Bool.or_eq_false_iff] at h
  obtain ⟨⟨⟨⟨⟨⟨⟨h1, h2⟩, h3⟩, h4⟩, h5⟩, h6⟩, h7⟩, h8⟩ := h
  simp [updateRow, h1, h2, h3, h4, h5, h6, h7, h8]

/-- `updateRow` never touches the base name. -/
theorem updateRow_base_name (r : ManifestRow) (f : String) :
    (updateRow r f).base_name = r.base_name := by
  simp only [updateRow]
  split_ifs <;> rfl

/-- Classifying members never touches the row's base name. -/
theorem foldl_updateRow_base_name (ms : List String) :
    ∀ r : ManifestRow, (ms.foldl updateRow r).base_name = r.base_name := by
  induction ms with
  | nil => intro r; rfl
  | cons f fs ih => intro r; rw [List.foldl_cons, ih, updateRow_base_name]

/-- The row of a group is labelled with the group's base name. -/
theorem rowFor_base_name (b : String) (ms : List String) :
    (rowFor b ms).base_name = b :=
  foldl_updateRow_base_name ms ⟨b, "", "", "", ""⟩

/-- A group none of whose members is classified builds the all-empty
row. -/
theorem rowFor_unclassified (b : String) (ms : List String)
    (h : ∀ f ∈ ms, classifies f = false) :
    rowFor b ms = ⟨b, "", "", "", ""⟩ := by
  unfold rowFor
  induction ms with
  | nil => rfl
  | cons f fs ih =>
    rw [List.foldl_cons, updateRow_not_classified _ _ (h f (by simp))]
    exact ih (fun x hx => h x (by simp [hx]))

/-- One grouping step preserves distinctness of the group keys. -/
theorem groupStep_keys_nodup (acc : List (String × List String)) (f : String)
    (h : (acc.map Prod.fst).Nodup) :
    ((groupStep acc f).map Prod.fst).Nodup := by
  unfold groupStep
  cases hc : acc.any (fun g => g.1 == baseOf f) with
  | true =>
    simp only [hc, if_true]
    have heq : (acc.map (fun g => if g.1 == baseOf f then (g.1, g.2 ++ [f]) else g)).map
        Prod.fst = acc.map Prod.fst := by
      rw [List.map_map]
      exact List.map_congr_left
        (fun g _ => by simp only [Function.comp_apply]; split <;> rfl)
    rw [heq]; exact h
  | false =>
    simp only [hc, Bool.false_eq_true, if_false, List.map_append]
    have hnm : baseOf f ∉ acc.map Prod.fst := by
      intro hm
      obtain ⟨g, hg, he⟩ := List.mem_map.mp hm
      have := List.any_eq_false.mp hc g hg
      simp [he] at this
    simp [List.nodup_append, h, hnm]

/-- The group keys of a listing are pairwise distinct. -/
theorem groupBases_keys_nodup (files : List String) :
    ((groupBases files).map Prod.fst).Nodup := by
  suffices h : ∀ (l : List String) (acc : List (String × List String)),
      (acc.map Prod.fst).Nodup → ((l.foldl groupStep acc).map Prod.fst).Nodup by
    exact h files [] (by simp)
  intro l
  induction l with
  | nil => intro acc hacc; exact hacc
  | cons f fs ih =>
    intro acc hacc
    exact ih (groupStep acc f) (groupStep_keys_nodup acc f hacc)

/-- In a list with distinct keys, one key maps to one value. -/
theorem nodup_keys_functional {β : Type} (l : List (String × β)) (a : String)
    (b1 b2 : β) (hnd : (l.map Prod.fst).Nodup)
    (h1 : (a, b1) ∈ l) (h2 : (a, b2) ∈ l) : b1 = b2 := by
  induction l with
  | nil => cases h1
  | cons x xs ih =>
    simp only [List.map_cons, List.nodup_cons] at hnd
    rcases List.mem_cons.mp h1 with he1 | ht1 <;>
      rcases List.mem_cons.mp h2 with he2 | ht2
    · rw [← he1] at he2; exact ((Prod.mk.injEq _ _ _ _).mp he2).2.symm
    · exfalso
      cases he1
      exact hnd.1 (List.mem_map.mpr ⟨(a, b2), ht2, rfl⟩)
    · exfalso
      cases he2
      exact hnd.1 (List.mem_map.mpr ⟨(a, b1), ht1, rfl⟩)
    · exact ih hnd.2 ht1 ht2

/-- C9: the manifest builder emits a row only when at least one of the
four slots is non-empty, and a base-name group none of whose members is
classified into any slot yields no `manifest.csv` row with its base
name. -/
theorem manifest_rows_nonempty_slots (files : List String) :
    (∀ r ∈ create_csv_manifest_rows files,
      r.image ≠ "" ∨ r.video ≠ "" ∨ r.video_withmeta ≠ "" ∨ r.metadata ≠ "") ∧
    (∀ (base : String) (members : List String),
      (base, members) ∈ groupBases files →
      (∀ f ∈ members, classifies f = false) →
      ∀ r ∈ create_csv_manifest_rows files, r.base_name ≠ base) := by
  constructor
  · intro r hr
    have hp := (List.mem_filter.mp hr).2
    by_contra hcon
    push_neg at hcon
    obtain ⟨h1, h2, h3, h4⟩ := hcon
    rw [h1, h2, h3, h4] at hp
    exact absurd hp (by decide)
  · intro base members hg hall r hr hbase
    obtain ⟨hmem, hpred⟩ := List.mem_filter.mp hr
    obtain ⟨g, hgmem, hrow⟩ := List.mem_map.mp hmem
    have hb : g.1 = base := by rw [← hbase, ← hrow, rowFor_base_name]
    have hmembers : g.2 = members := by
      refine nodup_keys_functional (groupBases files) base g.2 members
        (groupBases_keys_nodup files) ?_ hg
      rw [← hb]; exact hgmem
    have hempty : r = ⟨base, "", "", "", ""⟩ := by
      rw [← hrow, hb, hmembers]
      exact rowFor_unclassified base members hall
    rw [hempty] at hpred
    have hpred' : (!("" : String).isEmpty || !("" : String).isEmpty ||
        !("" : String).isEmpty || !("" : String).isEmpty) = true := hpred
    exact absurd hpred' (by decide)

/-- C9 (witness): the invariant applied at a concrete listing in which
the group `"notes"` has no classifiable member; the only surviving row
is the one for `"a"`. -/
theorem manifest_rows_nonempty_slots_witness :
    (rowFor "a" ["a.jpg"]).base_name ≠ "notes" :=
  (manifest_rows_nonempty_slots ["a.jpg", "notes.txt"]).2
    "notes" ["notes.txt"] (by decide) (by decide)
    (rowFor "a" ["a.jpg"]) (by decide)

/-- Storing a fresh key appends the binding. -/
theorem dSet_fresh_append (d : List (String × J)) (k : String) (v : J)
    (h : ∀ kv ∈ d, kv.1 ≠ k) : dSet d k v = d ++ [(k, v)] := by
  unfold dSet
  rw [if_neg]
  intro hany
  obtain ⟨kv, hkv, he⟩ := List.any_eq_true.mp hany
  exact h kv hkv (by simpa using he)

/-- Every binding of `dSet d k v` is an old binding or the new one. -/
theorem dSet_mem {d : List (String × J)} {k : String} {v : J} {kv : String × J}
    (h : kv ∈ dSet d k v) : kv ∈ d ∨ kv = (k, v) := by
  unfold dSet at h
  split at h
  · obtain ⟨x, hx, he⟩ := List.mem_map.mp h
    by_cases hk : (x.1 == k) = true
    · right; rw [← he]; simp [hk]
    · left; rw [← he]; simp only [hk, if_false, Bool.false_eq_true]; exact hx
  · rcases List.mem_append.mp h with hl | hr
    · exact Or.inl hl
    · right; simpa using hr

/-- Overwriting the bindings of a key `k'` does not change which entry a
lookup of a different key `k` finds. -/
theorem find?_map_overwrite (k k' : String) (v : J) (hne : k' ≠ k) :
    ∀ l : List (String × J),
      (l.map (fun kv => if kv.1 == k' then (k', v) else kv)).find?
          (fun kv => kv.1 == k) = l.find? (fun kv => kv.1 == k)
  | [] => rfl
  | x :: xs => by
    rw [List.map_cons]
    by_cases hx : (x.1 == k') = true
    · rw [if_pos hx]
      have h1 : ((k', v).1 == k) = false := by
        rw [beq_eq_false_iff_ne]; exact hne
      have h2 : (x.1 == k) = false := by
        rw [beq_eq_false_iff_ne]
        rw [beq_iff_eq] at hx
        rw [hx]; exact hne
      rw [List.find?_cons, List.find?_cons, h1, h2]
      exact find?_map_overwrite k k' v hne xs
    · rw [if_neg hx, List.find?_cons, List.find?_cons]
      cases hxk : (x.1 == k) with
      | true => rfl
      | false => exact find?_map_overwrite k k' v hne xs

/-- Looking up a key other than the stored one is unchanged. -/
theorem dGet_dSet_ne (d : List (String × J)) (k k' : String) (v : J)
    (hne : k' ≠ k) : dGet (dSet d k' v) k = dGet d k := by
  unfold dSet
  split
  · unfold dGet
    rw [find?_map_overwrite k k' v hne d]
  · unfold dGet
    rw [List.find?_append]
    have hF : (k' == k) = false := by rw [beq_eq_false_iff_ne]; exact hne
    have h1 : ([(k', v)].find? (fun kv => kv.1 == k)) = none := by
      rw [List.find?_cons]
      simp only [hF]
      rfl
    rw [h1]
    cases d.find? (fun kv => kv.1 == k) <;> rfl

/-- The head of an ffmpeg plan, with the command's tail reassociated
onto the fixed prefix. -/
theorem ffmpegRun_head_tail (a b c : List String) (rest : List ToolCall) :
    (ToolCall.ffmpegRun (a ++ b ++ c) :: rest).head? =
      some (ToolCall.ffmpegRun (a ++ (b ++ c))) := by
  rw [List.append_assoc]
  rfl

/-- Every tag the allow-list pass emits is a target tag of the
allow-list. -/
theorem allowListPass_mem (m : List (String × String))
    (flat : List (String × J)) :
    ∀ kv ∈ allowListPass m flat, ∃ e ∈ m, e.2 = kv.1 := by
  unfold allowListPass
  suffices h : ∀ (l : List (String × J)) (acc : List (String × J)),
      (∀ kv ∈ acc, ∃ e ∈ m, e.2 = kv.1) →
      ∀ kv ∈ l.foldl (fun acc kv =>
          match lookupTag m kv.1 with
          | some tag => dSet acc tag kv.2
          | none => acc) acc,
        ∃ e ∈ m, e.2 = kv.1 by
    exact h flat [] (by simp)
  intro l
  induction l with
  | nil => intro acc hacc; exact hacc
  | cons x xs ih =>
    intro acc hacc
    rw [List.foldl_cons]
    cases hl : lookupTag m x.1 with
    | none => exact ih acc (by simpa [hl] using hacc)
    | some tag =>
      simp only [hl]
      refine ih (dSet acc tag x.2) ?_
      intro kv hkv
      rcases dSet_mem hkv with hold | hnew
      · exact hacc kv hold
      · unfold lookupTag at hl
        cases hf : m.find? (fun kv => kv.1 == x.1) with
        | none => rw [hf] at hl; cases hl
        | some e =>
          rw [hf] at hl
          cases hl
          exact ⟨e, List.mem_of_find?_eq_some hf, by rw [hnew]⟩

/-- The allow-list pass emits nothing under a tag no present key maps
to. -/
theorem dGet_allowListPass_none (m : List (String × String))
    (flat : List (String × J)) (tag : String)
    (h : ∀ kv ∈ flat, lookupTag m kv.1 ≠ some tag) :
    dGet (allowListPass m flat) tag = none := by
  unfold allowListPass
  suffices hs : ∀ (l : List (String × J)) (acc : List (String × J)),
      (∀ kv ∈ l, lookupTag m kv.1 ≠ some tag) →
      dGet acc tag = none →
      dGet (l.foldl (fun acc kv =>
          match lookupTag m kv.1 with
          | some t => dSet acc t kv.2
          | none => acc) acc) tag = none by
    exact hs flat [] h (by rfl)
  intro l
  induction l with
  | nil => intro acc _ hacc; exact hacc
  | cons x xs ih =>
    intro acc hl hacc
    rw [List.foldl_cons]
    cases hlk : lookupTag m x.1 with
    | none => exact ih acc (fun kv hkv => hl kv (by simp [hkv])) (by simpa [hlk])
    | some t =>
      simp only [hlk]
      refine ih (dSet acc t x.2) (fun kv hkv => hl kv (by simp [hkv])) ?_
      have hne : t ≠ tag := by
        intro he
        exact hl x (by simp) (by rw [hlk, he])
      rw [dGet_dSet_ne acc tag t x.2 hne]
      exact hacc

/-- No image allow-list target tag is a creation-date tag. -/
theorem mapping_img_no_date_tag :
    ∀ e ∈ mapping_img, creationDateTags.contains e.2 = false := by decide

/-- Only the source key `title` maps to `XMP:Title` in the image
allow-list. -/
theorem lookupTag_img_title (k : String)
    (h : lookupTag mapping_img k = some "XMP:Title") : k = "title" := by
  unfold lookupTag at h
  cases hf : mapping_img.find? (fun kv => kv.1 == k) with
  | none => rw [hf] at h; cases h
  | some e =>
    rw [hf] at h
    have h2 := Option.some.inj h
    have hm := List.mem_of_find?_eq_some hf
    have hp := List.find?_some hf
    simp only [beq_iff_eq] at hp
    simp only [mapping_img, List.mem_cons, List.not_mem_nil, or_false] at hm
    rcases hm with he | he | he | he | he | he | he | he <;> subst he
    · exact hp.symm
    all_goals exact absurd h2 (by decide)

/-- C10: every ffmpeg transcode invocation carries `title=` and
`comment=` container fields — rendering the looked-up value, or the
empty string when `title`/`description` is absent from the flat mapping
— while the image tag path, by contrast, omits `XMP:Title` entirely when
`title` is absent. -/
theorem ffmpeg_always_title_comment :
    (∀ (env : Env) (vp : String) (meta : List (String × J))
        (calls : List ToolCall),
      embed_metadata_ffmpeg env vp meta = .ok calls →
      ∃ tail, calls.head? = some (ToolCall.ffmpegRun
        (["ffmpeg", "-y", "-i", vp,
          "-metadata", "title=" ++ pyStr ((dGet meta "title").getD (J.str "")),
          "-metadata",
          "comment=" ++ pyStr ((dGet meta "description").getD (J.str ""))] ++
          tail))) ∧
    (∀ meta : List (String × J), dGet meta "title" = none →
      pyStr ((dGet meta "title").getD (J.str "")) = "") ∧
    (∀ (flat : List (String × J)) (tags : List (String × J)),
      dGet flat "title" = none →
      map_json_to_exif_xmp flat false = .ok tags →
      dGet tags "XMP:Title" = none) := by
  refine ⟨?_, ?_, ?_⟩
  · intro env vp meta calls h
    cases hb : best_timestamp meta with
    | none =>
      simp only [embed_metadata_ffmpeg, hb, Except.bind] at h
      cases h
      exact ⟨_, ffmpegRun_head_tail _ _ _ _⟩
    | some v =>
      cases ht : pyTruthy v with
      | false =>
        simp only [embed_metadata_ffmpeg, hb, ht, Bool.false_eq_true, if_false,
          Except.bind] at h
        cases h
        exact ⟨_, ffmpegRun_head_tail _ _ _ _⟩
      | true =>
        cases hn : pyInt v with
        | error e =>
          simp only [embed_metadata_ffmpeg, hb, ht, if_true, hn, Except.map,
            Except.bind, reduceCtorEq] at h
        | ok n =>
          simp only [embed_metadata_ffmpeg, hb, ht, if_true, hn, Except.map,
            Except.bind] at h
          cases h
          exact ⟨_, ffmpegRun_head_tail _ _ _ _⟩
  · intro meta h; rw [h]; rfl
  · intro flat tags hflat h
    have hbase : dGet (allowListPass mapping_img flat) "XMP:Title" = none := by
      refine dGet_allowListPass_none mapping_img flat "XMP:Title" ?_
      intro kv hkv he
      have hk := lookupTag_img_title kv.1 he
      exact (dGet_eq_none_iff flat "title").mp hflat kv hkv hk
    cases hb : best_timestamp flat with
    | none =>
      simp only [map_json_to_exif_xmp, hb, Bool.false_eq_true, if_false] at h
      cases h; exact hbase
    | some v =>
      cases ht : pyTruthy v with
      | false =>
        simp only [map_json_to_exif_xmp, hb, ht, Bool.false_eq_true, if_false] at h
        cases h; exact hbase
      | true =>
        cases hn : pyInt v with
        | error e =>
          simp only [map_json_to_exif_xmp, hb, ht, hn, Bool.false_eq_true,
            if_false, if_true, Except.map, reduceCtorEq] at h
        | ok n =>
          simp only [map_json_to_exif_xmp, hb, ht, hn, Bool.false_eq_true,
            if_false, if_true, Except.map] at h
          cases h
          rw [dGet_dSet_ne _ _ _ _ (by decide), dGet_dSet_ne _ _ _ _ (by decide)]
          exact hbase

/-- C10 (witness): the ffmpeg plan for a mapping lacking both `title`
and `description` carries the empty-string fields. -/
theorem ffmpeg_always_title_comment_witness :
    ∃ tail,
      ([ToolCall.ffmpegRun
          ["ffmpeg", "-y", "-i", "v.mp4", "-metadata", "title=",
           "-metadata", "comment=",
           "-metadata", "creation_time=1970-01-02T00:00:00",
           "-codec", "copy", "v_withmeta.mp4"]] : List ToolCall).head? =
        some (ToolCall.ffmpegRun
          (["ffmpeg", "-y", "-i", "v.mp4",
            "-metadata", "title=" ++ pyStr ((dGet
              [("photoTakenTime_timestamp", J.str "86400")] "title").getD (J.str "")),
            "-metadata", "comment=" ++ pyStr ((dGet
              [("photoTakenTime_timestamp", J.str "86400")] "description").getD
                (J.str ""))] ++ tail)) :=
  ffmpeg_always_title_comment.1 envAllOk "v.mp4"
    [("photoTakenTime_timestamp", J.str "86400")] _ (by rfl)

/-- C5 (counterexample): the image branch of the tag mapper with a
present best timestamp emits TWO creation-date tags —
`EXIF:DateTimeOriginal` and `XMP:CreateDate` — not exactly one. -/
theorem image_date_tags_counterexample :
    map_json_to_exif_xmp [("photoTakenTime_timestamp", J.str "86400")] false =
      .ok [("EXIF:DateTimeOriginal", J.str "1970:01:02 00:00:00"),
           ("XMP:CreateDate", J.str "1970:01:02 00:00:00")] ∧
    ([("EXIF:DateTimeOriginal", J.str "1970:01:02 00:00:00"),
      ("XMP:CreateDate", J.str "1970:01:02 00:00:00")].filter
        (fun kv => creationDateTags.contains kv.1)).length ≠ 1 := by
  constructor
  · rfl
  · decide

/-- C5 (amended): for image kind with a truthy best timestamp whose
`int()` conversion succeeds, the tag mapper emits exactly two
creation-date tags, `EXIF:DateTimeOriginal` and `XMP:CreateDate`, both
carrying the same `%Y:%m:%d %H:%M:%S` rendering of the timestamp. -/
theorem image_two_date_tags (flat : List (String × J)) (v : J) (n : Int)
    (hb : best_timestamp flat = some v) (ht : pyTruthy v = true)
    (hn : pyInt v = .ok n) :
    ∃ tags, map_json_to_exif_xmp flat false = .ok tags ∧
      tags.filter (fun kv => creationDateTags.contains kv.1) =
        [("EXIF:DateTimeOriginal", J.str (fmtColon n)),
         ("XMP:CreateDate", J.str (fmtColon n))] := by
  have hbase := allowListPass_mem mapping_img flat
  have hfresh1 : ∀ kv ∈ allowListPass mapping_img flat,
      kv.1 ≠ "EXIF:DateTimeOriginal" := by
    intro kv hkv he
    obtain ⟨e, hem, h2⟩ := hbase kv hkv
    have := mapping_img_no_date_tag e hem
    rw [h2, he] at this
    exact absurd this (by decide)
  have hfresh2 : ∀ kv ∈ allowListPass mapping_img flat ++
      [("EXIF:DateTimeOriginal", J.str (fmtColon n))], kv.1 ≠ "XMP:CreateDate" := by
    intro kv hkv he
    rcases List.mem_append.mp hkv with hl | hr
    · obtain ⟨e, hem, h2⟩ := hbase kv hl
      have := mapping_img_no_date_tag e hem
      rw [h2, he] at this
      exact absurd this (by decide)
    · simp only [List.mem_singleton] at hr
      rw [hr] at he
      have he' : ("EXIF:DateTimeOriginal" : String) = "XMP:CreateDate" := he
      exact absurd he' (by decide)
  refine ⟨dSet (dSet (allowListPass mapping_img flat)
      "EXIF:DateTimeOriginal" (.str (fmtColon n)))
      "XMP:CreateDate" (.str (fmtColon n)), ?_, ?_⟩
  · simp only [map_json_to_exif_xmp, hb, ht, hn, Bool.false_eq_true, if_false,
      if_true, Except.map]
  · rw [dSet_fresh_append _ _ _ hfresh1, dSet_fresh_append _ _ _ hfresh2,
      List.append_assoc, List.filter_append]
    have h1 : (allowListPass mapping_img flat).filter
        (fun kv => creationDateTags.contains kv.1) = [] := by
      rw [List.filter_eq_nil_iff]
      intro kv hkv hp
      obtain ⟨e, hem, h2⟩ := hbase kv hkv
      have := mapping_img_no_date_tag e hem
      rw [h2] at this
      rw [this] at hp
      cases hp
    rw [h1]
    rfl

/-- C5 (witness): the amended two-tag property at a concrete mapping. -/
theorem image_two_date_tags_witness :
    ∃ tags,
      map_json_to_exif_xmp [("title", J.str "T"),
        ("photoTakenTime_timestamp", J.str "1600000000")] false = .ok tags ∧
      tags.filter (fun kv => creationDateTags.contains kv.1) =
        [("EXIF:DateTimeOriginal", J.str (fmtColon 1600000000)),
         ("XMP:CreateDate", J.str (fmtColon 1600000000))] :=
  image_two_date_tags
    [("title", J.str "T"), ("photoTakenTime_timestamp", J.str "1600000000")]
    (J.str "1600000000") 1600000000 (by rfl) (by rfl) (by rfl)

/-- String append concatenates the character data. -/
theorem data_append (a b : String) : (a ++ b).data = a.data ++ b.data := rfl

/-- The first element surviving `dropWhile` fails the predicate. -/
theorem dropWhile_cons_head {α : Type} (p : α → Bool) (l : List α) (x : α)
    (xs : List α) (h : l.dropWhile p = x :: xs) : p x = false := by
  induction l with
  | nil => simp [List.dropWhile] at h
  | cons c cs ih =>
    rw [List.dropWhile_cons] at h
    split at h
    · exact ih h
    · cases h; simp_all

/-- `os.path.splitext` splits a name into two parts whose concatenation
is the name. -/
theorem splitExt_concat (s : String) : (splitExt s).1 ++ (splitExt s).2 = s := by
  apply str_ext
  rw [data_append]
  simp only [splitExt]
  cases hd : s.data.reverse.dropWhile (fun c => c != '.') with
  | nil => show s.data ++ ("" : String).data = s.data; simp
  | cons c rootRev =>
    have hc : (c != '.') = false :=
      dropWhile_cons_head (fun c => c != '.') s.data.reverse c rootRev hd
    have hc' : c = '.' := by simpa using hc
    subst hc'
    generalize htw : s.data.reverse.takeWhile (fun c => c != '.') = t
    have h1 : t ++ ('.' :: rootRev) = s.data.reverse := by
      rw [← htw, ← hd]; exact List.takeWhile_append_dropWhile _ _
    have hs : s.data = rootRev.reverse ++ '.' :: t.reverse := by
      have h2 := congrArg List.reverse h1
      rw [List.reverse_reverse, List.reverse_append, List.reverse_cons,
        List.append_assoc, List.singleton_append] at h2
      exact h2.symm
    cases ha : rootRev.any (fun c => c != '.') with
    | true =>
      simp only [ha, if_true]
      show rootRev.reverse ++ ('.' :: t.reverse) = s.data
      exact hs.symm
    | false =>
      simp only [ha, Bool.false_eq_true, if_false]
      show s.data ++ ("" : String).data = s.data
      simp

/-- The `_withmeta` transcode output path (of either container) is never
the input path — it is strictly longer. -/
theorem withmeta_output_ne (mp : String) :
    (if pyLower (splitExt mp).2 == ".mov" then (splitExt mp).1 ++ "_withmeta.mp4"
     else (splitExt mp).1 ++ "_withmeta" ++ (splitExt mp).2) ≠ mp := by
  intro he
  have hm : (splitExt mp).1.data.length + (splitExt mp).2.data.length =
      mp.data.length := by
    have := congrArg (fun t : String => t.data.length) (splitExt_concat mp)
    simpa [data_append] using this
  split at he
  · rename_i hmov
    have hmov' : pyLower (splitExt mp).2 = ".mov" := beq_iff_eq.mp hmov
    have hlen4 : (splitExt mp).2.data.length = 4 := by
      have := congrArg (fun t : String => t.data.length) hmov'
      simpa [pyLower] using this
    have hlen := congrArg (fun t : String => t.data.length) he
    simp only [data_append, List.length_append] at hlen
    have h13 : ("_withmeta.mp4" : String).data.length = 13 := by decide
    rw [h13] at hlen
    omega
  · have hlen := congrArg (fun t : String => t.data.length) he
    simp only [data_append, List.length_append] at hlen
    have h9 : ("_withmeta" : String).data.length = 9 := by decide
    rw [h9] at hlen
    omega

/-- When a `SetFile`-from-BestTimestamp plan succeeds, it contains a
Finder-date write on the path exactly when the timestamp is truthy. -/
theorem setFile_mem_finderFromBest (best : Option J) (p : String)
    (calls : List ToolCall) (h : finderFromBest best p = .ok calls) :
    ((∃ d, ToolCall.setFile p d ∈ calls) ↔
      ∃ v, best = some v ∧ pyTruthy v = true) := by
  cases best with
  | none =>
    simp only [finderFromBest] at h
    cases h
    simp
  | some v =>
    cases ht : pyTruthy v with
    | false =>
      simp only [finderFromBest, ht, Bool.false_eq_true, if_false] at h
      cases h
      simp only [List.not_mem_nil, exists_const, false_iff, not_exists, not_and]
      intro v' hv'
      cases Option.some.inj hv'
      rw [ht]
      simp
    | true =>
      cases hn : pyInt v with
      | error e =>
        simp only [finderFromBest, ht, if_true, hn, Except.map, reduceCtorEq] at h
      | ok n =>
        simp only [finderFromBest, ht, if_true, hn, Except.map] at h
        cases h
        constructor
        · intro _; exact ⟨v, rfl, ht⟩
        · intro _; exact ⟨fmtFinder n, by simp⟩

/-- The transcode plan never writes a Finder date on the original video
path: its only `SetFile` call, present when the original has an OS-level
creation date, targets the strictly longer `_withmeta` output path. -/
theorem setFile_orig_not_in_ffmpeg (env : Env) (mp : String)
    (flat : List (String × J)) (calls1 : List ToolCall)
    (h : embed_metadata_ffmpeg env mp flat = .ok calls1) :
    ∀ d, ToolCall.setFile mp d ∉ calls1 := by
  have hstruct : ∃ cmd, calls1 = [ToolCall.ffmpegRun cmd] ++
      (match env.finderDate mp with
       | some d0 => [ToolCall.setFile
          (if pyLower (splitExt mp).2 == ".mov" then
            (splitExt mp).1 ++ "_withmeta.mp4"
           else (splitExt mp).1 ++ "_withmeta" ++ (splitExt mp).2) d0]
       | none => []) := by
    cases hb : best_timestamp flat with
    | none =>
      simp only [embed_metadata_ffmpeg, hb, Except.bind] at h
      cases h; exact ⟨_, rfl⟩
    | some v =>
      cases ht : pyTruthy v with
      | false =>
        simp only [embed_metadata_ffmpeg, hb, ht, Bool.false_eq_true, if_false,
          Except.bind] at h
        cases h; exact ⟨_, rfl⟩
      | true =>
        cases hn : pyInt v with
        | error e =>
          simp only [embed_metadata_ffmpeg, hb, ht, if_true, hn, Except.map,
            Except.bind, reduceCtorEq] at h
        | ok n =>
          simp only [embed_metadata_ffmpeg, hb, ht, if_true, hn, Except.map,
            Except.bind] at h
          cases h; exact ⟨_, rfl⟩
  obtain ⟨cmd, hc⟩ := hstruct
  intro d hmem
  rw [hc] at hmem
  rcases List.mem_append.mp hmem with h1 | h2
  · simp at h1
  · cases hfd : env.finderDate mp with
    | none => rw [hfd] at h2; cases h2
    | some d0 =>
      rw [hfd] at h2
      simp only [List.mem_singleton] at h2
      injection h2 with h3 _
      exact withmeta_output_ne mp h3.symm

/-- C8 (counterexample): the Finder-date write derived from
BestTimestamp IS applied to the original media file for an `.mp4` pair,
which is not a PNG. -/
theorem finder_date_on_mp4_counterexample :
    pyLower (splitExt "v.mp4").2 ≠ ".png" ∧
    ToolCall.setFile "v.mp4" "01/02/1970 00:00:00" ∈
      (processPair envAllOk ("v.mp4", "v.mp4.suppl.json")).1 := by decide

/-- C8 (amended): in the per-pair plan of `main`, a
BestTimestamp-derived Finder-date write on the original media file is
present exactly when the file's extension is `.png` OR `.mp4` and the
best timestamp is truthy. -/
theorem finder_date_on_original_iff (env : Env) (mp : String)
    (flat : List (String × J)) (calls : List ToolCall)
    (h : pairPlan env mp flat = .ok calls) :
    (∃ d, ToolCall.setFile mp d ∈ calls) ↔
      ((pyLower (splitExt mp).2 = ".png" ∨ pyLower (splitExt mp).2 = ".mp4") ∧
       ∃ v, best_timestamp flat = some v ∧ pyTruthy v = true) := by
  by_cases hvid : (pyLower (splitExt mp).2 == ".mp4" ||
      pyLower (splitExt mp).2 == ".mov") = true
  · have hvid2 : pyLower (splitExt mp).2 = ".mp4" ∨
        pyLower (splitExt mp).2 = ".mov" := by simpa using hvid
    have hpng : (pyLower (splitExt mp).2 == ".png") = false := by
      rcases hvid2 with h4 | hmv
      · rw [h4]; decide
      · rw [hmv]; decide
    cases hc1 : embed_metadata_ffmpeg env mp flat with
    | error e =>
      simp only [pairPlan, hvid, if_true, hc1, Except.bind, reduceCtorEq] at h
    | ok calls1 =>
      cases hmp4 : (pyLower (splitExt mp).2 == ".mp4") with
      | true =>
        cases hfb : finderFromBest (best_timestamp flat) mp with
        | error e =>
          simp only [pairPlan, hvid, hmp4, Bool.true_or, if_true, hc1, hpng,
            Bool.false_eq_true, if_false, hfb, Except.bind, Except.map,
            reduceCtorEq] at h
        | ok calls4 =>
          simp only [pairPlan, hvid, hmp4, Bool.true_or, if_true, hc1, hpng,
            Bool.false_eq_true, if_false, hfb, Except.bind, Except.map] at h
          cases h
          constructor
          · rintro ⟨d, hd⟩
            refine ⟨Or.inr (beq_iff_eq.mp hmp4), ?_⟩
            simp only [List.append_nil, List.mem_append] at hd
            rcases hd with hd1 | hd4
            · exact absurd hd1 (setFile_orig_not_in_ffmpeg env mp flat calls1 hc1 d)
            · exact (setFile_mem_finderFromBest _ _ _ hfb).mp ⟨d, hd4⟩
          · rintro ⟨_, hex⟩
            obtain ⟨d, hd⟩ := (setFile_mem_finderFromBest _ _ _ hfb).mpr hex
            exact ⟨d, by simp only [List.append_nil, List.mem_append]; exact Or.inr hd⟩
      | false =>
        have hmov : (pyLower (splitExt mp).2 == ".mov") = true := by
          rcases hvid2 with h4 | hmv
          · rw [h4] at hmp4; exact absurd hmp4 (by decide)
          · exact beq_iff_eq.mpr hmv
        simp only [pairPlan, hvid, hmp4, hmov, Bool.false_or, if_true, hc1,
          hpng, Bool.false_eq_true, if_false, Except.bind, Except.map] at h
        cases h
        constructor
        · rintro ⟨d, hd⟩
          simp only [List.append_nil, List.mem_append] at hd
          exact absurd hd (setFile_orig_not_in_ffmpeg env mp flat calls1 hc1 d)
        · rintro ⟨hor, _⟩
          exfalso
          rcases hor with hp | h4
          · rw [hp] at hpng; exact absurd hpng (by decide)
          · rw [h4] at hmp4; exact absurd hmp4 (by decide)
  · have hvid' : (pyLower (splitExt mp).2 == ".mp4" ||
        pyLower (splitExt mp).2 == ".mov") = false := by
      cases hx : (pyLower (splitExt mp).2 == ".mp4" ||
        pyLower (splitExt mp).2 == ".mov") with
      | true => exact absurd hx hvid
      | false => rfl
    have hmp4 : (pyLower (splitExt mp).2 == ".mp4") = false := by
      rcases Bool.or_eq_false_iff.mp hvid' with ⟨h4, _⟩
      exact h4
    have hmov : (pyLower (splitExt mp).2 == ".mov") = false := by
      rcases Bool.or_eq_false_iff.mp hvid' with ⟨_, hm⟩
      exact hm
    cases hmj : map_json_to_exif_xmp flat false with
    | error e =>
      simp only [pairPlan, embed_metadata, hmp4, hmov, Bool.or_false,
        Bool.false_eq_true, if_false, hmj, Except.bind, Except.map,
        reduceCtorEq] at h
    | ok tags =>
      cases hpng : (pyLower (splitExt mp).2 == ".png") with
      | true =>
        cases hfb : finderFromBest (best_timestamp flat) mp with
        | error e =>
          simp only [pairPlan, embed_metadata, hmp4, hmov, Bool.or_false,
            Bool.false_eq_true, if_false, hmj, hpng, if_true, hfb,
            Except.bind, Except.map, reduceCtorEq] at h
        | ok calls3 =>
          simp only [pairPlan, embed_metadata, hmp4, hmov, Bool.or_false,
            Bool.false_eq_true, if_false, hmj, hpng, if_true, hfb,
            Except.bind, Except.map] at h
          cases h
          constructor
          · rintro ⟨d, hd⟩
            refine ⟨Or.inl (beq_iff_eq.mp hpng), ?_⟩
            simp only [List.append_nil, List.mem_append, List.mem_singleton,
              reduceCtorEq, false_or, or_false] at hd
            exact (setFile_mem_finderFromBest _ _ _ hfb).mp ⟨d, hd⟩
          · rintro ⟨_, hex⟩
            obtain ⟨d, hd⟩ := (setFile_mem_finderFromBest _ _ _ hfb).mpr hex
            refine ⟨d, ?_⟩
            simp only [List.append_nil, List.mem_append]
            exact Or.inr hd
      | false =>
        simp only [pairPlan, embed_metadata, hmp4, hmov, Bool.or_false,
          Bool.false_eq_true, if_false, hmj, hpng, Except.bind, Except.map] at h
        cases h
        constructor
        · rintro ⟨d, hd⟩
          simp only [List.append_nil, List.mem_append, List.mem_singleton,
            reduceCtorEq, or_false, false_or] at hd
        · rintro ⟨hor, _⟩
          exfalso
          rcases hor with hp | h4
          · rw [hp] at hpng; exact absurd hpng (by decide)
          · rw [h4] at hmp4; exact absurd hmp4 (by decide)

/-- C8 (witness): the amended characterisation applied at a concrete PNG
pair whose plan carries the Finder-date write. -/
theorem finder_date_on_original_iff_witness :
    (pyLower (splitExt "p.png").2 = ".png" ∨
      pyLower (splitExt "p.png").2 = ".mp4") ∧
    ∃ v, best_timestamp [("photoTakenTime_timestamp", J.str "86400")] = some v ∧
      pyTruthy v = true :=
  (finder_date_on_original_iff envAllOk "p.png"
      [("photoTakenTime_timestamp", J.str "86400")]
      [ToolCall.exiftoolEmbed "p.png"
        ["-EXIF:DateTimeOriginal=1970:01:02 00:00:00",
         "-XMP:CreateDate=1970:01:02 00:00:00", "-overwrite_original"],
       ToolCall.exiftoolFileDate "p.png",
       ToolCall.setFile "p.png" "01/02/1970 00:00:00"]
      (by rfl)).mp
    ⟨"01/02/1970 00:00:00", by decide⟩

/-- Executing a call plan performs a prefix of it, the whole plan when
nothing fails. -/
theorem runCalls_prefix (env : Env) : ∀ calls : List ToolCall,
    (runCalls env calls).1 <+: calls ∧
    ((runCalls env calls).2 = none → (runCalls env calls).1 = calls) := by
  intro calls
  induction calls with
  | nil => exact ⟨List.nil_prefix, fun _ => rfl⟩
  | cons c rest ih =>
    simp only [runCalls]
    cases hr : env.run c with
    | ok _ =>
      refine ⟨List.cons_prefix_cons.mpr ⟨rfl, ih.1⟩, fun h2 => ?_⟩
      rw [ih.2 h2]
    | error e =>
      refine ⟨⟨rest, rfl⟩, fun h2 => ?_⟩
      cases h2

/-- C4: for a valid directory with at least one media/sidecar pair,
`main` exits 0, always writes the manifest, and processes every pair
(each pair's outcome, error included, is recorded independently of the
others); and within one pair, the executed calls are a prefix of the
pair's plan — all of it when no step fails — so a failing step abandons
only that pair's remaining steps. -/
theorem batch_resilient :
    (∀ (env : Env) (entries : List String),
      (find_image_json_pairs entries).1 ≠ [] →
      (mainRun env true entries).exitCode = 0 ∧
      (mainRun env true entries).manifestWritten = true ∧
      (mainRun env true entries).processed =
        (find_image_json_pairs entries).1.map
          (fun pr => (pr, processPair env pr))) ∧
    (∀ (env : Env) (pr : String × String) (meta : List (String × J))
        (calls : List ToolCall),
      env.parse pr.2 = .ok meta →
      pairPlan env pr.1 (flatten_json meta "") = .ok calls →
      (processPair env pr).1 <+: calls ∧
      ((processPair env pr).2 = none → (processPair env pr).1 = calls)) := by
  constructor
  · intro env entries hne
    have hie : (find_image_json_pairs entries).1.isEmpty = false := by
      cases hp : (find_image_json_pairs entries).1 with
      | nil => exact absurd hp hne
      | cons a l => rfl
    simp only [mainRun, Bool.not_true, Bool.false_eq_true, if_false, hie]
    exact ⟨trivial, trivial, trivial⟩
  · intro env pr meta calls hparse hplan
    simp only [processPair, hparse, hplan]
    exact runCalls_prefix env calls

/-- C4 (witness): a concrete run over a directory with one pair exits 0
with the manifest written. -/
theorem batch_resilient_witness :
    (mainRun envAllOk true ["a.jpg", "a.jpg.suppl.json"]).exitCode = 0 ∧
    (mainRun envAllOk true ["a.jpg", "a.jpg.suppl.json"]).manifestWritten = true :=
  ⟨(batch_resilient.1 envAllOk ["a.jpg", "a.jpg.suppl.json"] (by decide)).1,
   (batch_resilient.1 envAllOk ["a.jpg", "a.jpg.suppl.json"] (by decide)).2.1⟩

/-! ### Flattening machinery: joining and splitting paths -/

/-- Left-cancellation for string append. -/
theorem str_append_left_cancel {a b c : String} (h : a ++ b = a ++ c) :
    b = c := by
  apply str_ext
  have := congrArg String.data h
  rw [data_append, data_append] at this
  exact List.append_cancel_left this

/-- Splitting after a fresh `'_'` separates the underscore-free first
component. -/
theorem splitChars_append (k : List Char) (rest : List Char)
    (h : '_' ∉ k) : splitChars (k ++ '_' :: rest) = k :: splitChars rest := by
  induction k with
  | nil => simp [splitChars]
  | cons c cs ih =>
    have hc : c ≠ '_' := fun he => h (by rw [he]; exact List.mem_cons_self _ _)
    have ih' := ih (fun hm => h (List.mem_cons_of_mem c hm))
    simp only [List.cons_append, splitChars, hc, if_false, List.append_eq, ih']

/-- Splitting an underscore-free run returns it whole. -/
theorem splitChars_no_underscore (k : List Char) (h : '_' ∉ k) :
    splitChars k = [k] := by
  induction k with
  | nil => rfl
  | cons c cs ih =>
    have hc : c ≠ '_' := fun he => h (by rw [he]; exact List.mem_cons_self _ _)
    have ih' := ih (fun hm => h (List.mem_cons_of_mem c hm))
    simp only [splitChars, hc, if_false, ih']

/-- Splitting inverts joining for non-empty underscore-free component
lists. -/
theorem splitChars_joinChars : ∀ ps : List (List Char), ps ≠ [] →
    (∀ k ∈ ps, '_' ∉ k) → splitChars (joinChars ps) = ps
  | [], h, _ => absurd rfl h
  | [k], _, hall => by
    simp only [joinChars]
    exact splitChars_no_underscore k (hall k (by simp))
  | k :: k2 :: ks, _, hall => by
    rw [show joinChars (k :: k2 :: ks) = k ++ '_' :: joinChars (k2 :: ks) from rfl]
    rw [splitChars_append k _ (hall k (by simp))]
    rw [splitChars_joinChars (k2 :: ks) (by simp)
      (fun x hx => hall x (List.mem_cons_of_mem k hx))]

/-- The character data of a joined key list. -/
theorem data_joinKeys : ∀ ps : List String,
    (joinKeys ps).data = joinChars (ps.map String.data)
  | [] => rfl
  | [k] => rfl
  | k :: k2 :: ks => by
    rw [show joinKeys (k :: k2 :: ks) = k ++ "_" ++ joinKeys (k2 :: ks) from rfl]
    rw [show (joinChars ((k :: k2 :: ks).map String.data)) =
      k.data ++ '_' :: joinChars ((k2 :: ks).map String.data) from rfl]
    rw [String.append_assoc, data_append, data_append]
    rw [data_joinKeys (k2 :: ks)]
    rfl

/-- `splitKey` inverts `joinKeys` on non-empty paths of underscore-free
components. -/
theorem splitKey_joinKeys (ps : List String) (hne : ps ≠ [])
    (hall : ∀ k ∈ ps, k.data.contains '_' = false) :
    splitKey (joinKeys ps) = ps := by
  unfold splitKey
  rw [data_joinKeys]
  rw [splitChars_joinChars (ps.map String.data)
    (by simpa using hne)
    (by
      intro l hl
      obtain ⟨k, hk, he⟩ := List.mem_map.mp hl
      rw [← he]
      intro hm
      have hc : k.data.elem '_' = false := hall k hk
      exact absurd (List.elem_iff.mpr hm) (by rw [hc]; simp))]
  rw [List.map_map]
  have hid : (String.mk ∘ String.data) = id := by funext s; rfl
  rw [hid, List.map_id]

/-- `joinKeys` is injective on non-empty paths of underscore-free
components. -/
theorem joinKeys_inj (p q : List String) (hp : p ≠ []) (hq : q ≠ [])
    (hpc : ∀ k ∈ p, k.data.contains '_' = false)
    (hqc : ∀ k ∈ q, k.data.contains '_' = false)
    (h : joinKeys p = joinKeys q) : p = q := by
  have h1 := splitKey_joinKeys p hp hpc
  have h2 := splitKey_joinKeys q hq hqc
  rw [← h1, ← h2, h]

/-! ### Flattening machinery: leaf-path facts -/

/-- Every leaf of one entry carries the entry's key as path head. -/
theorem leafV_head (k0 : String) (v : J) :
    ∀ pv ∈ leafV k0 v, ∃ q, pv.1 = k0 :: q := by
  intro pv hpv
  cases v with
  | obj inner =>
    simp only [leafV] at hpv
    obtain ⟨x, _, he⟩ := List.mem_map.mp hpv
    exact ⟨x.1, by rw [← he]⟩
  | null => simp only [leafV, List.mem_singleton] at hpv; exact ⟨[], by rw [hpv]⟩
  | bool b => simp only [leafV, List.mem_singleton] at hpv; exact ⟨[], by rw [hpv]⟩
  | num n => simp only [leafV, List.mem_singleton] at hpv; exact ⟨[], by rw [hpv]⟩
  | str s => simp only [leafV, List.mem_singleton] at hpv; exact ⟨[], by rw [hpv]⟩
  | arr xs => simp only [leafV, List.mem_singleton] at hpv; exact ⟨[], by rw [hpv]⟩

/-- Every leaf path of an object starts with one of its keys. -/
theorem leaves_path_head : ∀ (l : List (String × J)), ∀ pv ∈ leaves l,
    ∃ k q, pv.1 = k :: q ∧ k ∈ keysOf l := by
  intro l
  induction l with
  | nil => intro pv hpv; simp [leaves] at hpv
  | cons kv rest ih =>
    intro pv hpv
    rw [show leaves (kv :: rest) = leafV kv.1 kv.2 ++ leaves rest from by
      rw [show kv = (kv.1, kv.2) from rfl]; rfl] at hpv
    rcases List.mem_append.mp hpv with h1 | h2
    · obtain ⟨q, hq⟩ := leafV_head kv.1 kv.2 pv h1
      exact ⟨kv.1, q, hq, by simp [keysOf]⟩
    · obtain ⟨k, q, hq, hk⟩ := ih pv h2
      exact ⟨k, q, hq, by simp [keysOf] at hk ⊢; exact Or.inr hk⟩

/-- Every leaf path is non-empty. -/
theorem leaves_path_ne_nil (l : List (String × J)) :
    ∀ pv ∈ leaves l, pv.1 ≠ [] := by
  intro pv hpv
  obtain ⟨k, q, hq, _⟩ := leaves_path_head l pv hpv
  rw [hq]
  exact List.cons_ne_nil k q

mutual

/-- Underscore-free keys: every component of every leaf path of one
entry is underscore-free. -/
theorem nu_paths_V : ∀ (k0 : String) (v : J),
    k0.data.contains '_' = false → nuV v = true →
    ∀ pv ∈ leafV k0 v, ∀ k ∈ pv.1, k.data.contains '_' = false
  | k0, .obj inner, hk, hv, pv, hpv => by
    simp only [leafV] at hpv
    obtain ⟨x, hx, he⟩ := List.mem_map.mp hpv
    intro k hkmem
    rw [← he] at hkmem
    rcases List.mem_cons.mp hkmem with h1 | h2
    · rw [h1]; exact hk
    · exact nu_paths_L inner (by simpa [nuV] using hv) x hx k h2
  | k0, .null, hk, _, pv, hpv => by
    simp only [leafV, List.mem_singleton] at hpv
    intro k hkmem
    rw [hpv] at hkmem
    simp only [List.mem_singleton] at hkmem
    rw [hkmem]; exact hk
  | k0, .bool b, hk, _, pv, hpv => by
    simp only [leafV, List.mem_singleton] at hpv
    intro k hkmem
    rw [hpv] at hkmem
    simp only [List.mem_singleton] at hkmem
    rw [hkmem]; exact hk
  | k0, .num n, hk, _, pv, hpv => by
    simp only [leafV, List.mem_singleton] at hpv
    intro k hkmem
    rw [hpv] at hkmem
    simp only [List.mem_singleton] at hkmem
    rw [hkmem]; exact hk
  | k0, .str s, hk, _, pv, hpv => by
    simp only [leafV, List.mem_singleton] at hpv
    intro k hkmem
    rw [hpv] at hkmem
    simp only [List.mem_singleton] at hkmem
    rw [hkmem]; exact hk
  | k0, .arr xs, hk, _, pv, hpv => by
    simp only [leafV, List.mem_singleton] at hpv
    intro k hkmem
    rw [hpv] at hkmem
    simp only [List.mem_singleton] at hkmem
    rw [hkmem]; exact hk

/-- Underscore-free keys: every component of every leaf path of an
object is underscore-free. -/
theorem nu_paths_L : ∀ (l : List (String × J)), nuL l = true →
    ∀ pv ∈ leaves l, ∀ k ∈ pv.1, k.data.contains '_' = false
  | [], _, pv, hpv => by simp [leaves] at hpv
  | (k0, v) :: rest, hl, pv, hpv => by
    have hl0 : (!(k0.data.contains '_') && nuV v && nuL rest) = true := hl
    rw [Bool.and_eq_true, Bool.and_eq_true] at hl0
    have hl' : k0.data.contains '_' = false ∧ nuV v = true ∧ nuL rest = true :=
      ⟨by simpa using hl0.1.1, hl0.1.2, hl0.2⟩
    rw [show leaves ((k0, v) :: rest) = leafV k0 v ++ leaves rest from rfl] at hpv
    rcases List.mem_append.mp hpv with h1 | h2
    · exact nu_paths_V k0 v hl'.1 hl'.2.1 pv h1
    · exact nu_paths_L rest hl'.2.2 pv h2

end

mutual

/-- Distinct keys give distinct leaf paths within one entry. -/
theorem paths_nodup_V : ∀ (k0 : String) (v : J), wfV v = true →
    ((leafV k0 v).map (fun pv => pv.1)).Nodup
  | k0, .obj inner, hv => by
    simp only [leafV, List.map_map]
    have h1 := paths_nodup_L inner (by simpa [wfV] using hv)
    have h2 : (List.map ((fun pv : List String × J => pv.1) ∘
        fun pv : List String × J => (k0 :: pv.1, pv.2)) (leaves inner)) =
        (leaves inner).map (fun pv => k0 :: pv.1) := rfl
    rw [h2]
    rw [show ((leaves inner).map (fun pv => k0 :: pv.1)) =
      ((leaves inner).map (fun pv => pv.1)).map (fun p => k0 :: p) from by
        rw [List.map_map]; rfl]
    exact h1.map (fun a b h => by injection h)
  | _, .null, _ => by simp [leafV]
  | _, .bool b, _ => by simp [leafV]
  | _, .num n, _ => by simp [leafV]
  | _, .str s, _ => by simp [leafV]
  | _, .arr xs, _ => by simp [leafV]

/-- Distinct keys give distinct leaf paths. -/
theorem paths_nodup_L : ∀ (l : List (String × J)), wfL l = true →
    ((leaves l).map (fun pv => pv.1)).Nodup
  | [], _ => by simp [leaves]
  | (k0, v) :: rest, hl => by
    have hl0 : (!(rest.any (fun kv => kv.1 == k0)) && wfV v && wfL rest) = true := hl
    rw [Bool.and_eq_true, Bool.and_eq_true] at hl0
    have hl' : (rest.any (fun kv => kv.1 == k0)) = false ∧ wfV v = true ∧
        wfL rest = true := ⟨by simpa using hl0.1.1, hl0.1.2, hl0.2⟩
    rw [show leaves ((k0, v) :: rest) = leafV k0 v ++ leaves rest from rfl,
      List.map_append]
    rw [List.nodup_append]
    refine ⟨paths_nodup_V k0 v hl'.2.1, paths_nodup_L rest hl'.2.2, ?_⟩
    intro p hp hq
    obtain ⟨pv1, hpv1, he1⟩ := List.mem_map.mp hp
    obtain ⟨pv2, hpv2, he2⟩ := List.mem_map.mp hq
    obtain ⟨q1, hq1⟩ := leafV_head k0 v pv1 hpv1
    obtain ⟨k2, q2, hq2, hk2⟩ := leaves_path_head rest pv2 hpv2
    have he : k0 :: q1 = k2 :: q2 := by rw [← hq1, ← hq2, he1, he2]
    have hk0 : k0 = k2 := by injection he
    have hany := List.any_eq_false.mp hl'.1
    obtain ⟨kv2, hkv2, hkey⟩ := List.mem_map.mp (hk2 : k2 ∈ keysOf rest)
    have hkk : kv2.1 = k0 := by rw [hkey, ← hk0]
    have hne : kv2.1 ≠ k0 := by simpa using hany kv2 hkv2
    exact hne hkk

end

mutual

/-- A non-empty-object entry value with no empty-object values inside
contributes at least one leaf. -/
theorem leafV_ne_nil : ∀ (k0 : String) (v : J), neV v = true →
    leafV k0 v ≠ []
  | k0, .obj inner, hv => by
    have h1 : inner ≠ [] ∧ neL inner = true := by
      have := (by simpa [neV, Bool.and_eq_true] using hv :
        inner.isEmpty = false ∧ neL inner = true)
      exact ⟨by cases inner with
        | nil => cases this.1
        | cons a l => exact List.cons_ne_nil a l, this.2⟩
    simp only [leafV]
    intro hc
    exact leaves_ne_nil inner h1.1 h1.2 (by simpa using hc)
  | _, .null, _ => by simp [leafV]
  | _, .bool b, _ => by simp [leafV]
  | _, .num n, _ => by simp [leafV]
  | _, .str s, _ => by simp [leafV]
  | _, .arr xs, _ => by simp [leafV]

/-- A non-empty object with no empty-object values has leaves. -/
theorem leaves_ne_nil : ∀ (l : List (String × J)), l ≠ [] → neL l = true →
    leaves l ≠ []
  | [], hne, _ => absurd rfl hne
  | (k0, v) :: rest, _, hl => by
    have hl' : neV v = true ∧ neL rest = true := by
      simpa [neL, Bool.and_eq_true] using hl
    rw [show leaves ((k0, v) :: rest) = leafV k0 v ++ leaves rest from rfl]
    intro hc
    rcases List.append_eq_nil.mp hc with ⟨h1, _⟩
    exact leafV_ne_nil k0 v hl'.1 h1

end

/-- Under well-formedness and underscore-freedom, the flattened keys of
the leaves are pairwise distinct. -/
theorem flatKeys_nodup (l : List (String × J)) (hwf : wfL l = true)
    (hnu : nuL l = true) :
    ((leaves l).map (fun pv => joinKeys pv.1)).Nodup := by
  rw [show ((leaves l).map (fun pv => joinKeys pv.1)) =
    ((leaves l).map (fun pv => pv.1)).map joinKeys from by rw [List.map_map]; rfl]
  refine List.Nodup.map_on ?_ (paths_nodup_L l hwf)
  intro p hp q hq he
  obtain ⟨pv1, hpv1, he1⟩ := List.mem_map.mp hp
  obtain ⟨pv2, hpv2, he2⟩ := List.mem_map.mp hq
  refine joinKeys_inj p q ?_ ?_ ?_ ?_ he
  · rw [← he1]; exact leaves_path_ne_nil l pv1 hpv1
  · rw [← he2]; exact leaves_path_ne_nil l pv2 hpv2
  · rw [← he1]; exact nu_paths_L l hnu pv1 hpv1
  · rw [← he2]; exact nu_paths_L l hnu pv2 hpv2

/-- Appending to the empty string on the left is the identity. -/
theorem str_nil_append (s : String) : "" ++ s = s := by
  apply str_ext
  rw [data_append]
  rfl

/-- Joining a two-or-more-component path separates the head with `_`. -/
theorem joinKeys_cons (k : String) (q : List String) (h : q ≠ []) :
    joinKeys (k :: q) = k ++ "_" ++ joinKeys q := by
  cases q with
  | nil => exact absurd rfl h
  | cons a l => rfl

/-- The leaf paths of one entry are non-empty. -/
theorem leafV_path_ne_nil (k0 : String) (v : J) :
    ∀ pv ∈ leafV k0 v, pv.1 ≠ [] := by
  intro pv hpv
  obtain ⟨q, hq⟩ := leafV_head k0 v pv hpv
  rw [hq]
  exact List.cons_ne_nil k0 q

/-- Prefixing distinct, non-empty, underscore-free paths with a common
prefix and joining them yields distinct flat keys. -/
theorem flatKeys_pre_nodup (pre : String) (ps : List (List String))
    (hnd : ps.Nodup) (hne : ∀ p ∈ ps, p ≠ [])
    (hc : ∀ p ∈ ps, ∀ k ∈ p, k.data.contains '_' = false) :
    (ps.map (fun p => pre ++ joinKeys p)).Nodup := by
  refine List.Nodup.map_on ?_ hnd
  intro p hp q hq he
  exact joinKeys_inj p q (hne p hp) (hne q hq) (hc p hp) (hc q hq)
    (str_append_left_cancel he)

/-- Merging a block of fresh, pairwise-distinct bindings appends it. -/
theorem dUpdate_append : ∀ (d2 d : List (String × J)),
    (∀ kv ∈ d2, ∀ kw ∈ d, kw.1 ≠ kv.1) → (keysOf d2).Nodup →
    dUpdate d d2 = d ++ d2
  | [], d, _, _ => by simp [dUpdate]
  | (k, v) :: rest, d, hdis, hnd => by
    show (((k, v) :: rest).foldl (fun acc kv => dSet acc kv.1 kv.2) d) =
      d ++ (k, v) :: rest
    rw [List.foldl_cons]
    have hset : dSet d k v = d ++ [(k, v)] :=
      dSet_fresh_append d k v (fun kw hkw => hdis (k, v) (by simp) kw hkw)
    rw [hset]
    simp only [keysOf, List.map_cons, List.nodup_cons] at hnd
    have hrec := dUpdate_append rest (d ++ [(k, v)])
      (by
        intro kv' hkv' kw hkw
        rcases List.mem_append.mp hkw with h1 | h2
        · exact hdis kv' (List.mem_cons_of_mem _ hkv') kw h1
        · simp only [List.mem_singleton] at h2
          rw [h2]
          intro he
          exact hnd.1 (List.mem_map.mpr ⟨kv', hkv', he.symm⟩))
      hnd.2
    show dUpdate (d ++ [(k, v)]) rest = _
    rw [hrec, List.append_assoc, List.singleton_append]

mutual

/-- One `flatten_json` loop iteration appends this entry's flattened
leaves when the accumulator's keys avoid them. -/
theorem flattenV_eq : ∀ (k0 : String) (v : J) (pre : String)
    (out : List (String × J)),
    k0.data.contains '_' = false → wfV v = true → nuV v = true →
    (∀ kw ∈ out, ∀ pv ∈ leafV k0 v, kw.1 ≠ pre ++ joinKeys pv.1) →
    flattenV k0 v pre out =
      out ++ (leafV k0 v).map (fun pv => (pre ++ joinKeys pv.1, pv.2))
  | k0, .obj inner, pre, out, hk0, hwf, hnu, hfresh => by
    show dUpdate out (flattenL inner (pre ++ k0 ++ "_") []) = _
    rw [flattenL_eq inner (pre ++ k0 ++ "_") [] (by simpa [wfV] using hwf)
      (by simpa [nuV] using hnu)
      (fun kw hkw => absurd hkw (List.not_mem_nil kw))]
    rw [List.nil_append]
    have hblock : (leaves inner).map
        (fun pv => (pre ++ k0 ++ "_" ++ joinKeys pv.1, pv.2)) =
        (leafV k0 (J.obj inner)).map
          (fun pv => (pre ++ joinKeys pv.1, pv.2)) := by
      show _ = ((leaves inner).map (fun pv => (k0 :: pv.1, pv.2))).map
        (fun pv => (pre ++ joinKeys pv.1, pv.2))
      rw [List.map_map]
      refine List.map_congr_left ?_
      intro pv hpv
      have hne := leaves_path_ne_nil inner pv hpv
      show (pre ++ k0 ++ "_" ++ joinKeys pv.1, pv.2) =
        (pre ++ joinKeys (k0 :: pv.1), pv.2)
      rw [joinKeys_cons k0 pv.1 hne]
      rw [← String.append_assoc, ← String.append_assoc]
    rw [hblock]
    refine dUpdate_append _ out ?_ ?_
    · intro kv hkv kw hkw
      obtain ⟨pv, hpv, he⟩ := List.mem_map.mp hkv
      rw [← he]
      exact hfresh kw hkw pv hpv
    · show (((leafV k0 (J.obj inner)).map
        (fun pv => (pre ++ joinKeys pv.1, pv.2))).map (fun kv => kv.1)).Nodup
      rw [List.map_map]
      have : ((fun kv : String × J => kv.1) ∘
          fun pv : List String × J => (pre ++ joinKeys pv.1, pv.2)) =
          fun pv : List String × J => pre ++ joinKeys pv.1 := rfl
      rw [this]
      rw [show ((leafV k0 (J.obj inner)).map
          (fun pv => pre ++ joinKeys pv.1)) =
        ((leafV k0 (J.obj inner)).map (fun pv => pv.1)).map
          (fun p => pre ++ joinKeys p) from by rw [List.map_map]; rfl]
      refine flatKeys_pre_nodup pre _ (paths_nodup_V k0 _ hwf) ?_ ?_
      · intro p hp
        obtain ⟨pv, hpv, he⟩ := List.mem_map.mp hp
        rw [← he]
        exact leafV_path_ne_nil k0 _ pv hpv
      · intro p hp
        obtain ⟨pv, hpv, he⟩ := List.mem_map.mp hp
        rw [← he]
        exact nu_paths_V k0 _ hk0 hnu pv hpv
  | k0, .null, pre, out, hk0, hwf, hnu, hfresh => by
    show dSet out (pre ++ k0) J.null = _
    rw [dSet_fresh_append out (pre ++ k0) (J.null)
      (fun kw hkw => hfresh kw hkw ([k0], J.null) (List.mem_singleton.mpr rfl))]
    rfl
  | k0, .bool b, pre, out, hk0, hwf, hnu, hfresh => by
    show dSet out (pre ++ k0) (J.bool b) = _
    rw [dSet_fresh_append out (pre ++ k0) (J.bool b)
      (fun kw hkw => hfresh kw hkw ([k0], J.bool b) (List.mem_singleton.mpr rfl))]
    rfl
  | k0, .num n, pre, out, hk0, hwf, hnu, hfresh => by
    show dSet out (pre ++ k0) (J.num n) = _
    rw [dSet_fresh_append out (pre ++ k0) (J.num n)
      (fun kw hkw => hfresh kw hkw ([k0], J.num n) (List.mem_singleton.mpr rfl))]
    rfl
  | k0, .str s, pre, out, hk0, hwf, hnu, hfresh => by
    show dSet out (pre ++ k0) (J.str s) = _
    rw [dSet_fresh_append out (pre ++ k0) (J.str s)
      (fun kw hkw => hfresh kw hkw ([k0], J.str s) (List.mem_singleton.mpr rfl))]
    rfl
  | k0, .arr xs, pre, out, hk0, hwf, hnu, hfresh => by
    show dSet out (pre ++ k0) (J.arr xs) = _
    rw [dSet_fresh_append out (pre ++ k0) (J.arr xs)
      (fun kw hkw => hfresh kw hkw ([k0], J.arr xs) (List.mem_singleton.mpr rfl))]
    rfl

/-- The `flatten_json` loop appends the flattened leaves of the
remaining entries when the accumulator's keys avoid them. -/
theorem flattenL_eq : ∀ (l : List (String × J)) (pre : String)
    (out : List (String × J)),
    wfL l = true → nuL l = true →
    (∀ kw ∈ out, ∀ pv ∈ leaves l, kw.1 ≠ pre ++ joinKeys pv.1) →
    flattenL l pre out =
      out ++ (leaves l).map (fun pv => (pre ++ joinKeys pv.1, pv.2))
  | [], pre, out, _, _, _ => by simp [flattenL, leaves]
  | (k0, v) :: rest, pre, out, hwf, hnu, hfresh => by
    have hwf0 : (!(rest.any (fun kv => kv.1 == k0)) && wfV v && wfL rest) =
      true := hwf
    rw [Bool.and_eq_true, Bool.and_eq_true] at hwf0
    have hnu0 : (!(k0.data.contains '_') && nuV v && nuL rest) = true := hnu
    rw [Bool.and_eq_true, Bool.and_eq_true] at hnu0
    have hk0 : k0.data.contains '_' = false := by simpa using hnu0.1.1
    have hany : (rest.any (fun kv => kv.1 == k0)) = false := by
      simpa using hwf0.1.1
    have hleafsub : ∀ pv ∈ leafV k0 v, pv ∈ leaves ((k0, v) :: rest) := by
      intro pv hpv
      rw [show leaves ((k0, v) :: rest) = leafV k0 v ++ leaves rest from rfl]
      exact List.mem_append.mpr (Or.inl hpv)
    have hrestsub : ∀ pv ∈ leaves rest, pv ∈ leaves ((k0, v) :: rest) := by
      intro pv hpv
      rw [show leaves ((k0, v) :: rest) = leafV k0 v ++ leaves rest from rfl]
      exact List.mem_append.mpr (Or.inr hpv)
    show flattenL rest pre (flattenV k0 v pre out) = _
    rw [flattenV_eq k0 v pre out hk0 hwf0.1.2 hnu0.1.2
      (fun kw hkw pv hpv => hfresh kw hkw pv (hleafsub pv hpv))]
    rw [flattenL_eq rest pre _ hwf0.2 hnu0.2 ?fresh]
    case fresh =>
      intro kw hkw pv hpv
      rcases List.mem_append.mp hkw with h1 | h2
      · exact hfresh kw h1 pv (hrestsub pv hpv)
      · obtain ⟨pv1, hpv1, he1⟩ := List.mem_map.mp h2
        rw [← he1]
        intro he
        have hj : joinKeys pv1.1 = joinKeys pv.1 := str_append_left_cancel he
        have hpq : pv1.1 = pv.1 :=
          joinKeys_inj pv1.1 pv.1 (leafV_path_ne_nil k0 v pv1 hpv1)
            (leaves_path_ne_nil rest pv hpv)
            (nu_paths_V k0 v hk0 hnu0.1.2 pv1 hpv1)
            (nu_paths_L rest hnu0.2 pv hpv) hj
        obtain ⟨q1, hq1⟩ := leafV_head k0 v pv1 hpv1
        obtain ⟨k2, q2, hq2, hk2⟩ := leaves_path_head rest pv hpv
        rw [hq1, hq2] at hpq
        have hk0k2 : k0 = k2 := by injection hpq
        obtain ⟨kv2, hkv2, hkey⟩ := List.mem_map.mp (hk2 : k2 ∈ keysOf rest)
        have hne2 : kv2.1 ≠ k0 := by
          simpa using List.any_eq_false.mp hany kv2 hkv2
        exact hne2 (by rw [hkey, ← hk0k2])
    rw [show leaves ((k0, v) :: rest) = leafV k0 v ++ leaves rest from rfl,
      List.map_append, List.append_assoc]

end

/-- `flatten_json` of a well-formed object with underscore-free keys is
exactly its leaf list under `_`-joined keys — no leaf is lost or
overwritten. -/
theorem flatten_json_eq (l : List (String × J)) (hwf : wfL l = true)
    (hnu : nuL l = true) :
    flatten_json l "" = (leaves l).map (fun pv => (joinKeys pv.1, pv.2)) := by
  unfold flatten_json
  rw [flattenL_eq l "" [] hwf hnu
    (fun kw hkw => absurd hkw (List.not_mem_nil kw))]
  rw [List.nil_append]
  exact List.map_congr_left (fun pv _ => by rw [str_nil_append])

/-! ### Re-nesting machinery -/

/-- Lookup of a key bound only at the very end. -/
theorem dGet_last (acc : List (String × J)) (k : String) (x : J)
    (h : ∀ kv ∈ acc, kv.1 ≠ k) : dGet (acc ++ [(k, x)]) k = some x := by
  unfold dGet
  rw [List.find?_append]
  have hn : acc.find? (fun kv => kv.1 == k) = none := by
    rw [List.find?_eq_none]
    intro kv hkv
    simpa using h kv hkv
  rw [hn]
  simp [List.find?]

/-- Overwriting a key bound only at the very end. -/
theorem dSet_last (acc : List (String × J)) (k : String) (x y : J)
    (h : ∀ kv ∈ acc, kv.1 ≠ k) :
    dSet (acc ++ [(k, x)]) k y = acc ++ [(k, y)] := by
  unfold dSet
  rw [if_pos]
  · rw [List.map_append]
    congr 1
    · calc acc.map (fun kv => if kv.1 == k then (k, y) else kv) = acc.map id :=
          List.map_congr_left (fun kv hkv => by
            rw [if_neg (by simpa using h kv hkv)]; rfl)
        _ = acc := List.map_id acc
    · simp
  · rw [List.any_append]
    simp

/-- Inserting leaves below a key bound at the end of the accumulator
extends only that key's object. -/
theorem insertAll_ext (k0 : String) :
    ∀ (pvs : List (List String × J)) (acc cur : List (String × J)),
    (∀ kv ∈ acc, kv.1 ≠ k0) → (∀ pv ∈ pvs, pv.1 ≠ []) →
    insertAll (acc ++ [(k0, J.obj cur)])
        (pvs.map (fun pv => (k0 :: pv.1, pv.2))) =
      acc ++ [(k0, J.obj (insertAll cur pvs))]
  | [], acc, cur, _, _ => by simp [insertAll]
  | (p, w) :: rest, acc, cur, hacc, hne => by
    obtain ⟨p0, ps, hps⟩ : ∃ p0 ps, p = p0 :: ps := by
      cases p with
      | nil => exact absurd rfl (hne ([], w) (List.mem_cons_self _ _))
      | cons a l => exact ⟨a, l, rfl⟩
    subst hps
    show insertAll (setPath (acc ++ [(k0, J.obj cur)]) (k0 :: p0 :: ps) w)
      (rest.map (fun pv => (k0 :: pv.1, pv.2))) = _
    rw [show setPath (acc ++ [(k0, J.obj cur)]) (k0 :: p0 :: ps) w =
        dSet (acc ++ [(k0, J.obj cur)]) k0 (J.obj (setPath cur (p0 :: ps) w))
        from by
      simp only [setPath]
      rw [dGet_last acc k0 (J.obj cur) hacc]]
    rw [dSet_last acc k0 _ _ hacc]
    rw [insertAll_ext k0 rest acc (setPath cur (p0 :: ps) w) hacc
      (fun pv hpv => hne pv (List.mem_cons_of_mem _ hpv))]
    rfl

/-- Inserting leaves below a fresh key creates that key's object at the
end. -/
theorem insertAll_new (k0 : String) (pvs : List (List String × J))
    (acc : List (String × J)) (hne0 : pvs ≠ [])
    (hacc : ∀ kv ∈ acc, kv.1 ≠ k0) (hne : ∀ pv ∈ pvs, pv.1 ≠ []) :
    insertAll acc (pvs.map (fun pv => (k0 :: pv.1, pv.2))) =
      acc ++ [(k0, J.obj (insertAll [] pvs))] := by
  cases pvs with
  | nil => exact absurd rfl hne0
  | cons pw rest =>
    obtain ⟨p, w⟩ := pw
    obtain ⟨p0, ps, hps⟩ : ∃ p0 ps, p = p0 :: ps := by
      cases p with
      | nil => exact absurd rfl (hne ([], w) (List.mem_cons_self _ _))
      | cons a l => exact ⟨a, l, rfl⟩
    subst hps
    show insertAll (setPath acc (k0 :: p0 :: ps) w)
      (rest.map (fun pv => (k0 :: pv.1, pv.2))) = _
    have hget : dGet acc k0 = none := (dGet_eq_none_iff acc k0).mpr hacc
    rw [show setPath acc (k0 :: p0 :: ps) w =
        dSet acc k0 (J.obj (setPath [] (p0 :: ps) w)) from by
      simp only [setPath, hget]]
    rw [dSet_fresh_append acc k0 _ hacc]
    rw [insertAll_ext k0 rest acc (setPath [] (p0 :: ps) w) hacc
      (fun pv hpv => hne pv (List.mem_cons_of_mem _ hpv))]
    rfl

mutual

/-- Inserting the leaves of one well-formed entry appends exactly that
entry. -/
theorem insertLeaves_V : ∀ (k0 : String) (v : J) (acc : List (String × J)),
    wfV v = true → neV v = true → (∀ kv ∈ acc, kv.1 ≠ k0) →
    insertAll acc (leafV k0 v) = acc ++ [(k0, v)]
  | k0, .obj inner, acc, hwf, hne, hacc => by
    show insertAll acc ((leaves inner).map (fun pv => (k0 :: pv.1, pv.2))) = _
    have hne0 : (!inner.isEmpty && neL inner) = true := hne
    rw [Bool.and_eq_true] at hne0
    have hinner : inner ≠ [] := by
      cases inner with
      | nil => exact absurd hne0.1 (by decide)
      | cons a l => exact List.cons_ne_nil a l
    rw [insertAll_new k0 (leaves inner) acc
      (leaves_ne_nil inner hinner hne0.2) hacc (leaves_path_ne_nil inner)]
    rw [insertLeaves_L inner [] (by simpa [wfV] using hwf) hne0.2
      (fun kv hkv => absurd hkv (List.not_mem_nil kv))]
    rw [List.nil_append]
  | k0, .null, acc, _, _, hacc => by
    show dSet acc k0 J.null = _
    exact dSet_fresh_append acc k0 J.null hacc
  | k0, .bool b, acc, _, _, hacc => by
    show dSet acc k0 (J.bool b) = _
    exact dSet_fresh_append acc k0 (J.bool b) hacc
  | k0, .num n, acc, _, _, hacc => by
    show dSet acc k0 (J.num n) = _
    exact dSet_fresh_append acc k0 (J.num n) hacc
  | k0, .str s, acc, _, _, hacc => by
    show dSet acc k0 (J.str s) = _
    exact dSet_fresh_append acc k0 (J.str s) hacc
  | k0, .arr xs, acc, _, _, hacc => by
    show dSet acc k0 (J.arr xs) = _
    exact dSet_fresh_append acc k0 (J.arr xs) hacc

/-- Inserting the leaves of a well-formed object with no empty-object
values rebuilds exactly that object after the accumulator. -/
theorem insertLeaves_L : ∀ (l : List (String × J)) (acc : List (String × J)),
    wfL l = true → neL l = true →
    (∀ kv ∈ acc, ∀ kw ∈ l, kv.1 ≠ kw.1) →
    insertAll acc (leaves l) = acc ++ l
  | [], acc, _, _, _ => by simp [insertAll, leaves]
  | (k0, v) :: rest, acc, hwf, hne, hdis => by
    have hwf0 : (!(rest.any (fun kv => kv.1 == k0)) && wfV v && wfL rest) =
      true := hwf
    rw [Bool.and_eq_true, Bool.and_eq_true] at hwf0
    have hne0 : (neV v && neL rest) = true := hne
    rw [Bool.and_eq_true] at hne0
    show insertAll acc (leafV k0 v ++ leaves rest) = _
    rw [show insertAll acc (leafV k0 v ++ leaves rest) =
      insertAll (insertAll acc (leafV k0 v)) (leaves rest) from
      List.foldl_append _ _ _ _]
    rw [insertLeaves_V k0 v acc hwf0.1.2 hne0.1
      (fun kv hkv => hdis kv hkv (k0, v) (by simp))]
    rw [insertLeaves_L rest (acc ++ [(k0, v)]) hwf0.2 hne0.2 ?dis]
    · rw [List.append_assoc, List.singleton_append]
    case dis =>
      intro kv hkv kw hkw
      rcases List.mem_append.mp hkv with h1 | h2
      · exact hdis kv h1 kw (List.mem_cons_of_mem _ hkw)
      · simp only [List.mem_singleton] at h2
        rw [h2]
        intro he
        have hany := (by simpa using hwf0.1.1 :
          ∀ (a : String) (b : J), (a, b) ∈ rest → ¬a = k0)
        exact hany kw.1 kw.2 hkw he.symm

end

/-- Folding functions agreeing on the list's members agree. -/
theorem foldl_congr_mem {α β : Type} : ∀ (l : List α) (f g : β → α → β)
    (a : β), (∀ b x, x ∈ l → f b x = g b x) → l.foldl f a = l.foldl g a
  | [], _, _, _, _ => rfl
  | x :: xs, f, g, a, h => by
    rw [List.foldl_cons, List.foldl_cons, h a x (by simp)]
    exact foldl_congr_mem xs f g _ (fun b y hy => h b y (by simp [hy]))

/-- C3 (amended): flattening then re-nesting by splitting each flat key
on `_` reconstructs the object exactly, for well-formed objects with
underscore-free keys, no array-valued leaves and no empty-object
values. -/
theorem flatten_roundtrip (l : List (String × J)) (hwf : wfL l = true)
    (hnu : nuL l = true) (hne : neL l = true) (_hna : naL l = true) :
    unflatten (flatten_json l "") = l := by
  rw [flatten_json_eq l hwf hnu]
  unfold unflatten
  rw [List.foldl_map]
  rw [foldl_congr_mem (leaves l) _ (fun acc pv => setPath acc pv.1 pv.2) []
    (fun acc pv hpv => by
      rw [splitKey_joinKeys pv.1 (leaves_path_ne_nil l pv hpv)
        (nu_paths_L l hnu pv hpv)])]
  show insertAll [] (leaves l) = l
  rw [insertLeaves_L l [] hwf hne
    (fun kv hkv => absurd hkv (List.not_mem_nil kv))]
  exact List.nil_append l

/-- C3 (witness): the roundtrip at a concrete two-level object. -/
theorem flatten_roundtrip_witness :
    unflatten (flatten_json
      [("geoData", J.obj [("latitude", J.num 1), ("longitude", J.num 2)]),
       ("title", J.str "T")] "") =
      [("geoData", J.obj [("latitude", J.num 1), ("longitude", J.num 2)]),
       ("title", J.str "T")] :=
  flatten_roundtrip
    [("geoData", J.obj [("latitude", J.num 1), ("longitude", J.num 2)]),
     ("title", J.str "T")]
    (by decide) (by decide) (by decide) (by decide)

/-- C3 (counterexample): an empty-object value satisfies the claim's
stated preconditions (no array-valued leaves, no `_` in any key) yet
breaks the roundtrip — flattening drops the empty object entirely. -/
theorem flatten_roundtrip_counterexample :
    naL [("a", J.obj [])] = true ∧
    nuL [("a", J.obj [])] = true ∧
    wfL [("a", J.obj [])] = true ∧
    flatten_json [("a", J.obj [])] "" = [] ∧
    unflatten (flatten_json [("a", J.obj [])] "") ≠ [("a", J.obj [])] := by
  refine ⟨by decide, by decide, by decide, by decide, ?_⟩
  intro h
  have h2 : ([] : List (String × J)) = [("a", J.obj [])] := h
  cases h2

/-- C6 (counterexample): with a `_` in an object key, two distinct leaf
paths collide on the same flattened key and the first leaf's value is
lost by overwriting. -/
theorem flatten_key_collision_counterexample :
    (leaves [("a_b", J.num 1), ("a", J.obj [("b", J.num 2)])]).map
        (fun pv => pv.1) = [["a_b"], ["a", "b"]] ∧
    (["a_b"] : List String) ≠ ["a", "b"] ∧
    joinKeys ["a_b"] = joinKeys ["a", "b"] ∧
    flatten_json [("a_b", J.num 1), ("a", J.obj [("b", J.num 2)])] "" =
      [("a_b", J.num 2)] ∧
    ("a_b", J.num 1) ∉
      flatten_json [("a_b", J.num 1), ("a", J.obj [("b", J.num 2)])] "" := by
  refine ⟨by decide, by decide, by decide, by decide, by decide⟩

/-- C6 (amended): for objects with pairwise-distinct keys containing no
`_`, any two distinct leaf paths flatten to distinct keys, and no leaf
value is lost — the flat mapping is exactly the leaf list. -/
theorem flatten_keys_distinct (l : List (String × J)) (hwf : wfL l = true)
    (hnu : nuL l = true) :
    ((leaves l).map (fun pv => joinKeys pv.1)).Nodup ∧
    flatten_json l "" = (leaves l).map (fun pv => (joinKeys pv.1, pv.2)) :=
  ⟨flatKeys_nodup l hwf hnu, flatten_json_eq l hwf hnu⟩

/-- C6 (witness): distinct flat keys and losslessness at a concrete
nested object. -/
theorem flatten_keys_distinct_witness :
    (((leaves [("geoData", J.obj [("latitude", J.num 1)]), ("title", J.str "T")]).map
        (fun pv => joinKeys pv.1)).Nodup) ∧
    flatten_json [("geoData", J.obj [("latitude", J.num 1)]), ("title", J.str "T")] "" =
      (leaves [("geoData", J.obj [("latitude", J.num 1)]), ("title", J.str "T")]).map
        (fun pv => (joinKeys pv.1, pv.2)) :=
  flatten_keys_distinct
    [("geoData", J.obj [("latitude", J.num 1)]), ("title", J.str "T")]
    (by decide) (by decide)

end CombineMetadata
